import Mathlib

/-!
Shallow embedding of the `kvs` log-structured key/value store
(`src/kv.rs`, `src/connection.rs`, `src/client.rs`, `src/common.rs`,
`src/error.rs`).

Modelling conventions:

* Serialized bytes are abstracted to `Token`s: `serde_json::to_writer`
  of a `Command` is modelled as the injective encoding `encodeCommand`,
  one token per JSON atom (tag, key string, value string).  All file
  offsets and lengths (`BufWriterWithOps.offset`, `CommandOps.offset`,
  `CommandOps.len`, `uncompacted`) therefore count tokens instead of
  bytes; the offset arithmetic of the source is kept unchanged.
* `u64` values are modelled as `Nat`.  The generation counter additions
  of `open` and `compact` carry the Rust debug-profile overflow check
  (panic when the sum reaches `2 ^ 64`); parsed generation numbers are
  bounded by the `u64` overflow check of `str::parse::<u64>`.
* `BTreeMap` / `HashMap` are modelled as association lists with
  replace-in-place insertion.  Iteration order (used only by
  `compact`) is list order instead of key order; no claim below
  depends on the iteration order.
* The file system is a list of `(file name, content)` pairs; open file
  handles are modelled by the per-generation reader states (`RState`)
  and the writer offset, which read and write through the directory
  map exactly while the file exists (readers and their files are
  always removed together, mirroring the source).
* Fallible I/O: `serde_json::to_writer` + `flush` inside `set` and
  `remove` take an explicit outcome (`wOk`): on failure the partially
  written tokens `junk` are appended and the error returns early,
  mirroring the `?` operator.  Panics (`assert!`, `expect`) are
  modelled as the `Fault.panicked` outcome.
-/

namespace Kvs

/-- One abstract atom of the serialized JSON representation of a
`Command` record in a log file. -/
inductive Token where
  | setTag : Token
  | removeTag : Token
  | str : String → Token
  deriving DecidableEq, Repr

/-- `Command` from `src/kv.rs`: `Set(String, String) | Remove(String)`. -/
inductive Command where
  | set : String → String → Command
  | remove : String → Command
  deriving DecidableEq, Repr

/-- `KvsError` from `src/error.rs`.  The `Io` and `Serde` payloads are
modelled by their display strings. -/
inductive KvsError where
  | utf8Error : Nat → KvsError
  | io : String → KvsError
  | serde : String → KvsError
  | keyNotFound : KvsError
  | unexpectedCommandType : KvsError
  deriving DecidableEq, Repr

/-- Outcome of an engine call: a returned `KvsError`, or a Rust panic
(`assert!`, `expect`, arithmetic overflow in the debug profile). -/
inductive Fault where
  | err : KvsError → Fault
  | panicked : String → Fault
  deriving DecidableEq, Repr

/-- `CommandOps` from `src/kv.rs`: generation, offset and length of an
on-disk record, as produced by `From<(u64, Range<u64>)>`. -/
structure CommandOps where
  gen : Nat
  offset : Nat
  len : Nat
  deriving DecidableEq, Repr

/-- State of a `BufReaderWithOps` handle: the `offset` field (updated
only by `Seek::seek`, not by `Read::read`, exactly as in the source)
and the true position of the underlying file cursor. -/
structure RState where
  offset : Nat
  pos : Nat
  deriving DecidableEq, Repr

/-- Association-list lookup (first matching key). -/
def alookup {α β : Type} [DecidableEq α] (k : α) : List (α × β) → Option β
  | [] => none
  | (a, b) :: t => if a = k then some b else alookup k t

/-- Association-list insert: replace the first entry with this key in
place, or append at the end.  Models `BTreeMap::insert` /
`HashMap::insert` up to iteration order. -/
def aupdate {α β : Type} [DecidableEq α] (k : α) (v : β) : List (α × β) → List (α × β)
  | [] => [(k, v)]
  | (a, b) :: t => if a = k then (k, v) :: t else (a, b) :: aupdate k v t

/-- Association-list erase of the first entry with this key.  Models
`BTreeMap::remove` / `HashMap::remove` up to iteration order. -/
def aerase {α β : Type} [DecidableEq α] (k : α) : List (α × β) → List (α × β)
  | [] => []
  | (a, b) :: t => if a = k then t else (a, b) :: aerase k t

/-- The keys of an association list. -/
def akeys {α β : Type} (l : List (α × β)) : List α := l.map Prod.fst

/-- No two entries share a key (the representation invariant of the
maps abstracted as association lists). -/
@[reducible] def NoDupKeys {α β : Type} (l : List (α × β)) : Prop := (akeys l).Nodup

/-- `serde_json::to_writer` of a `Command`, abstracted to tokens. -/
def encodeCommand : Command → List Token
  | .set k v => [.setTag, .str k, .str v]
  | .remove k => [.removeTag, .str k]

/-- `serde_json::from_reader` on a `take(len)` slice (as in
`KvStore::get`): one value must fill the slice exactly, anything else
is a serde error. -/
def readCommand : List Token → Except KvsError Command
  | [.setTag, .str k, .str v] => .ok (.set k v)
  | [.removeTag, .str k] => .ok (.remove k)
  | _ => .error (.serde "invalid or incomplete command record")

/-- The in-memory index: `BTreeMap<String, CommandOps>`. -/
abbrev Index := List (String × Kvs.CommandOps)

/-- The streaming replay loop of `load` (`src/kv.rs`): decode commands
one after the other, tracking the stream byte offset, updating the
index and accumulating the uncompacted byte count.  A trailing
fragment that is not a complete command is the propagated serde error
of `cmd?`. -/
def loadCmds (gen : Nat) : List Token → Nat → Index → Nat → Except KvsError (Index × Nat)
  | [], _, index, unc => .ok (index, unc)
  | .setTag :: .str k :: .str _v :: rest, off, index, unc =>
      let newOff := off + 3
      let unc' := match alookup k index with
        | some ops => unc + ops.len
        | none => unc
      loadCmds gen rest newOff (aupdate k ⟨gen, off, 3⟩ index) unc'
  | .removeTag :: .str k :: rest, off, index, unc =>
      let newOff := off + 2
      let unc' := match alookup k index with
        | some ops => unc + ops.len
        | none => unc
      loadCmds gen rest newOff (aerase k index) (unc' + (newOff - off))
  | _, _, _, _ => .error (.serde "EOF while parsing a value")

/-- Decimal digit character, for rendering `format!("{}.log", gen)`. -/
def digitChar (n : Nat) : Char := Char.ofNat (48 + n)

/-- Numeric value of a decimal digit character. -/
def digitVal (c : Char) : Nat := c.toNat - 48

/-- Decimal digits of `n`, least significant first (`fuel`-structured
so that it reduces in the kernel; `fuel > n` suffices). -/
def digitsRevAux : Nat → Nat → List Char
  | 0, _ => []
  | fuel + 1, n => if n < 10 then [digitChar n] else digitChar (n % 10) :: digitsRevAux fuel (n / 10)

/-- Decimal rendering of a `u64`, modelling `format!("{}", gen)`. -/
def natRepr (n : Nat) : List Char := (digitsRevAux (n + 1) n).reverse

/-- `log_path` from `src/kv.rs` relative to the store directory:
`format!("{}.log", gen)`. -/
def logName (gen : Nat) : String := ⟨natRepr gen ++ ".log".data⟩

/-- Strip every leading occurrence of the reversed suffix `".log"`:
helper for `trim_end_matches(".log")` on the reversed name. -/
def stripLogRev : List Char → List Char
  | 'g' :: 'o' :: 'l' :: '.' :: rest => stripLogRev rest
  | l => l

/-- `str::trim_end_matches(".log")`: repeatedly remove the suffix
`".log"`. -/
def trimLog (l : List Char) : List Char := (stripLogRev l.reverse).reverse

/-- The characters after the last `'.'` of the list, if any. -/
def afterLastDot : List Char → Option (List Char)
  | [] => none
  | '.' :: rest => some ((afterLastDot rest).getD rest)
  | _ :: rest => afterLastDot rest

/-- `Path::extension` of a plain file name: the portion after the last
`'.'`, unless the only `'.'` is the leading character. -/
def extOf : List Char → Option (List Char)
  | [] => none
  | _ :: rest => afterLastDot rest

/-- `str::parse::<u64>` on a digit run: every character must be a
decimal digit, the run must be nonempty, and the value must fit in a
`u64`. -/
def parseDigits (l : List Char) : Option Nat :=
  if l = [] then none
  else if l.all Char.isDigit then
    let v := l.foldl (fun acc c => 10 * acc + digitVal c) 0
    if v < 2 ^ 64 then some v else none
  else none

/-- `str::parse::<u64>`: an optional leading `'+'` followed by decimal
digits. -/
def parseU64 (l : List Char) : Option Nat :=
  match l with
  | '+' :: rest => parseDigits rest
  | _ => parseDigits l

/-- Generation number extracted from a directory entry name by
`gen_list`: keep names whose extension is `log`, strip every trailing
`".log"` occurrence from the full file name, and parse the remainder
as `u64`. -/
def parseGenName (name : String) : Option Nat :=
  if extOf name.data = some "log".data then parseU64 (trimLog name.data)
  else none

/-- A directory: file names mapped to file contents. -/
abbrev Dir := List (String × List Token)

/-- `gen_list` from `src/kv.rs`: collect the generation numbers that
parse from the `.log` entries of the directory and sort them
ascending (`sort_unstable`). -/
def genList (d : Dir) : List Nat :=
  ((d.map Prod.fst).filterMap parseGenName).insertionSort (· ≤ ·)

/-- `COMPACTION_THRESHOLD` from `src/kv.rs`. -/
def COMPACTION_THRESHOLD : Nat := 1024 * 1024

/-- `KvStore` from `src/kv.rs`.  `dir` is the store directory (the
`path` field together with the file system contents), `readers` the
`HashMap<u64, BufReaderWithOps>`, `writerOffset` the offset field of
the `BufWriterWithOps` on the current log file. -/
structure KvStore where
  dir : Dir
  readers : List (Nat × RState)
  writerOffset : Nat
  index : Index
  load : Bool
  currentGen : Nat
  uncompacted : Nat
  deriving DecidableEq, Repr

/-- Append tokens to a named file, creating it when absent (writes go
through an already-created handle in every reachable state). -/
def dirAppend (d : Dir) (name : String) (toks : List Token) : Dir :=
  aupdate name ((alookup name d).getD [] ++ toks) d

/-- `new_log_file` from `src/kv.rs`: open the generation's log file
with `create + append` (existing content is kept), register a fresh
reader for it, and return the new directory, readers and writer
offset (`BufWriterWithOps::new` seeks to `Start(0)`, so the offset is
`0`). -/
def newLogFile (d : Dir) (readers : List (Nat × RState)) (gen : Nat) :
    Dir × List (Nat × RState) × Nat :=
  let f := (alookup (logName gen) d).getD []
  (aupdate (logName gen) f d, aupdate gen ⟨0, 0⟩ readers, 0)

/-- The per-generation replay loop of `KvStore::open`: for each listed
generation open its log file (a missing file is an I/O error), replay
it with `load`, and register the reader, whose offset field stays `0`
while its cursor ends at end of file. -/
def replayGens (d : Dir) : List Nat → List (Nat × RState) → Index → Nat →
    Except Fault (List (Nat × RState) × Index × Nat)
  | [], readers, index, unc => .ok (readers, index, unc)
  | g :: rest, readers, index, unc =>
    match alookup (logName g) d with
    | none => .error (.err (.io "No such file or directory"))
    | some f =>
      match loadCmds g f 0 index unc with
      | .error e => .error (.err e)
      | .ok (index', unc') =>
          replayGens d rest (aupdate g ⟨0, f.length⟩ readers) index' unc'

/-- `KvStore::open`: list and replay the generations ascending, then
create the new writable generation `max + 1` (or `1` when none), with
the Rust debug-profile overflow check on the increment. -/
def openStore (d : Dir) : Except Fault KvStore :=
  match replayGens d (genList d) [] [] 0 with
  | .error f => .error f
  | .ok (readers, index, unc) =>
    if (genList d).getLast?.getD 0 + 1 < 2 ^ 64 then
      .ok { dir := (newLogFile d readers ((genList d).getLast?.getD 0 + 1)).1,
            readers := (newLogFile d readers ((genList d).getLast?.getD 0 + 1)).2.1,
            writerOffset := (newLogFile d readers ((genList d).getLast?.getD 0 + 1)).2.2,
            index := index, load := true,
            currentGen := (genList d).getLast?.getD 0 + 1, uncompacted := unc }
    else .error (.panicked "attempt to add with overflow")

namespace KvStore

/-- The body of the `for (.., cmd_ops) in &mut self.index` loop of
`KvStore::compact`: rebuild every index entry by copying its record
into the compaction file, seeking the source reader only when its
(possibly stale) offset field differs from the entry offset, exactly
as in the source. -/
def compactLoop (cgen : Nat) : Index → Dir → List (Nat × RState) → Nat →
    Except Fault (Index × Dir × List (Nat × RState) × Nat)
  | [], d, readers, cwOff => .ok ([], d, readers, cwOff)
  | (key, ops) :: rest, d, readers, cwOff =>
    match alookup ops.gen readers with
    | none => .error (.panicked "Cannot find log reader")
    | some r =>
      let r1 := if r.offset ≠ ops.offset then RState.mk ops.offset ops.offset else r
      let f := (alookup (logName ops.gen) d).getD []
      let copied := (f.drop r1.pos).take ops.len
      let readers' := aupdate ops.gen ⟨r1.offset, r1.pos + copied.length⟩ readers
      let d' := dirAppend d (logName cgen) copied
      let newOff := cwOff + copied.length
      match compactLoop cgen rest d' readers' newOff with
      | .error f => .error f
      | .ok (idx, d2, rd2, off2) =>
          .ok ((key, CommandOps.mk cgen cwOff (newOff - cwOff)) :: idx, d2, rd2, off2)

/-- `KvStore::compact`: switch the writer two generations ahead, copy
every live record into the compaction generation in between, then
delete every older generation's reader and log file and reset
`uncompacted` to `0`. -/
def compact (s : KvStore) : Except Fault Unit × KvStore :=
  if s.currentGen + 2 < 2 ^ 64 then
    let cgen := s.currentGen + 1
    let ngen := s.currentGen + 2
    let (d1, rd1, wOff) := newLogFile s.dir s.readers ngen
    let (d2, rd2, _cw) := newLogFile d1 rd1 cgen
    match compactLoop cgen s.index d2 rd2 0 with
    | .error f =>
        (.error f, { s with currentGen := ngen, dir := d2, readers := rd2,
                            writerOffset := wOff })
    | .ok (idx, d3, rd3, _off) =>
      let staleGens := (akeys rd3).filter (fun g => g < cgen)
      let rd4 := staleGens.foldl (fun r g => aerase g r) rd3
      let d4 := staleGens.foldl (fun dd g => aerase (logName g) dd) d3
      (.ok (), { s with dir := d4, readers := rd4, writerOffset := wOff,
                        index := idx, currentGen := ngen, uncompacted := 0 })
  else (.error (.panicked "attempt to add with overflow"), s)

/-- `KvStore::set`: append the `Set` record (a failed write keeps the
partially written `junk` tokens and returns early), insert the index
entry crediting a replaced entry to `uncompacted`, and compact past
the threshold. -/
def set (s : KvStore) (key val : String) (wOk : Bool) (junk : List Token) :
    Except Fault Unit × KvStore :=
  if !s.load then (.error (.panicked "assertion failed: self.load"), s)
  else
    let ops := s.writerOffset
    if !wOk then
      (.error (.err (.io "write failed")),
       { s with dir := dirAppend s.dir (logName s.currentGen) junk,
                writerOffset := ops + junk.length })
    else
      let toks := encodeCommand (.set key val)
      let newOff := ops + toks.length
      let s1 : KvStore :=
        { s with dir := dirAppend s.dir (logName s.currentGen) toks,
                 writerOffset := newOff }
      let s2 : KvStore :=
        match alookup key s1.index with
        | some old =>
            { s1 with index := aupdate key ⟨s1.currentGen, ops, newOff - ops⟩ s1.index,
                      uncompacted := s1.uncompacted + old.len }
        | none =>
            { s1 with index := aupdate key ⟨s1.currentGen, ops, newOff - ops⟩ s1.index }
      if s2.uncompacted > COMPACTION_THRESHOLD then
        match compact s2 with
        | (.ok _, s3) => (.ok (), s3)
        | (.error f, s3) => (.error f, s3)
      else (.ok (), s2)

/-- `KvStore::get`: look the key up in the index, seek the recorded
generation's reader to the record offset, read the record from a
`take(len)` slice and return the `Set` value. -/
def get (s : KvStore) (key : String) : Except Fault (Option String) × KvStore :=
  if !s.load then (.error (.panicked "assertion failed: self.load"), s)
  else
    match alookup key s.index with
    | none => (.ok none, s)
    | some ops =>
      match alookup ops.gen s.readers with
      | none => (.error (.panicked "Cannot find log reader"), s)
      | some _r =>
        let f := (alookup (logName ops.gen) s.dir).getD []
        let slice := (f.drop ops.offset).take ops.len
        let readers' := aupdate ops.gen ⟨ops.offset, ops.offset + slice.length⟩ s.readers
        let s' := { s with readers := readers' }
        match readCommand slice with
        | .ok (.set _ value) => (.ok (some value), s')
        | .ok (.remove _) => (.error (.err .unexpectedCommandType), s')
        | .error e => (.error (.err e), s')

/-- `KvStore::remove`: for a present key append the `Remove` record (a
failed write keeps the partial `junk` and returns early), credit the
record and the removed entry to `uncompacted`; for an absent key
return `KeyNotFound` without touching anything. -/
def remove (s : KvStore) (key : String) (wOk : Bool) (junk : List Token) :
    Except Fault Unit × KvStore :=
  if !s.load then (.error (.panicked "assertion failed: self.load"), s)
  else if (alookup key s.index).isSome then
    let ops := s.writerOffset
    if !wOk then
      (.error (.err (.io "write failed")),
       { s with dir := dirAppend s.dir (logName s.currentGen) junk,
                writerOffset := ops + junk.length })
    else
      let toks := encodeCommand (.remove key)
      let newOff := ops + toks.length
      let s1 : KvStore :=
        { s with dir := dirAppend s.dir (logName s.currentGen) toks,
                 writerOffset := newOff,
                 uncompacted := s.uncompacted + (newOff - ops) }
      match alookup key s1.index with
      | some old =>
          (.ok (), { s1 with index := aerase key s1.index,
                             uncompacted := s1.uncompacted + old.len })
      | none => (.error (.panicked "Key not found"), s1)
  else (.error (.err .keyNotFound), s)

end KvStore

/-- `Request` from `src/common.rs`. -/
inductive Request where
  | set : String → String → Request
  | get : String → Request
  | remove : String → Request
  deriving DecidableEq, Repr

/-- `Response` from `src/common.rs`: `Ok(Option<String>) | Err(String)`. -/
inductive Response where
  | ok : Option String → Response
  | err : String → Response
  deriving DecidableEq, Repr

/-- The `Display` strings of `KvsError` (the `#[fail(display = ...)]`
attributes of `src/error.rs`); `Io` and `Serde` display their inner
error. -/
def KvsError.display : KvsError → String
  | .utf8Error n => "Input was invalid UTF-8 at index " ++ ⟨natRepr n⟩
  | .io m => m
  | .serde m => m
  | .keyNotFound => "Key not found"
  | .unexpectedCommandType => "Unexpected command type"

/-- One iteration of the request loop of `Connection::serve`
(`src/connection.rs`): run the engine call under the lock and answer
`Ok(None)` for a successful `Set`/`Remove`, `Ok(value)` for a `Get`,
and `Err(format!("{}", e))` for a returned error.  A panic of the
engine call unwinds the serving thread, so no response is sent
(`none`). -/
def serveOne (s : KvStore) (req : Request) (wOk : Bool) (junk : List Token) :
    Option Response × KvStore :=
  match req with
  | .set k v =>
    match KvStore.set s k v wOk junk with
    | (.ok _, s') => (some (.ok none), s')
    | (.error (.err e), s') => (some (.err e.display), s')
    | (.error (.panicked _), s') => (none, s')
  | .get k =>
    match KvStore.get s k with
    | (.ok value, s') => (some (.ok value), s')
    | (.error (.err e), s') => (some (.err e.display), s')
    | (.error (.panicked _), s') => (none, s')
  | .remove k =>
    match KvStore.remove s k wOk junk with
    | (.ok _, s') => (some (.ok none), s')
    | (.error (.err e), s') => (some (.err e.display), s')
    | (.error (.panicked _), s') => (none, s')

/-- The client's view of its TCP connection: requests written so far
and the responses the server has sent that the client has not yet
read. -/
structure Chan where
  sent : List Request
  inbox : List Response
  deriving DecidableEq, Repr

/-- `Client::remove` from `src/client.rs`: serialize one `Remove`
request and flush it, then return `Ok(())` — the pending response is
left unread. -/
def clientRemove (c : Chan) (key : String) : Except KvsError Unit × Chan :=
  (.ok (), { c with sent := c.sent ++ [.remove key] })

/-- File stem per Rust `Path::file_stem`: the file name minus the
extension and its dot. -/
def stemOf (l : List Char) : List Char :=
  match extOf l with
  | none => l
  | some e => l.take (l.length - (e.length + 1))

/-- Generation numbers as the specification sentence states them: the
stems of the `.log` files that parse as unsigned integers, sorted
ascending. -/
def specStemGens (d : Dir) : List Nat :=
  (((d.map Prod.fst).filter (fun n => extOf n.data = some "log".data)).filterMap
    (fun n => parseU64 (stemOf n.data))).insertionSort (· ≤ ·)

/-- The file contents a handle on generation `gen` reads. -/
def fileAt (s : KvStore) (gen : Nat) : List Token :=
  (alookup (logName gen) s.dir).getD []

/-- The record slice an index entry denotes is exactly a serialized
`Set` command for its own key. -/
def sliceIsSetOf (key : String) (slice : List Token) : Bool :=
  match slice with
  | [.setTag, .str k, .str _] => k = key
  | _ => false

/-- Well-formedness of an index entry: its generation has a registered
reader and an existing log file, its range lies inside the file, and
the range holds a `Set` record of its key. -/
@[reducible] def entryWF (s : KvStore) (key : String) (ops : CommandOps) : Prop :=
  (alookup ops.gen s.readers).isSome = true ∧
  (alookup (logName ops.gen) s.dir).isSome = true ∧
  ops.offset + ops.len ≤ (fileAt s ops.gen).length ∧
  sliceIsSetOf key (((fileAt s ops.gen).drop ops.offset).take ops.len) = true

/-- Well-formedness of a reader handle: its file exists, its cursor is
inside the file, and its offset field is `0` or points strictly
inside the file. -/
@[reducible] def readerWF (s : KvStore) (g : Nat) (r : RState) : Prop :=
  (alookup (logName g) s.dir).isSome = true ∧
  r.pos ≤ (fileAt s g).length ∧
  (r.offset = 0 ∨ r.offset < (fileAt s g).length)

/-- Well-formedness (reachability invariant) of an engine state: the
store is loaded, index keys are unique, entries and readers are
well-formed, the current generation has a reader and a log file whose
length is the writer offset, and the generation counter has room
below `u64::MAX`. -/
@[reducible] def WF (s : KvStore) : Prop :=
  s.load = true ∧
  NoDupKeys s.index ∧
  (∀ e ∈ s.index, entryWF s e.1 e.2) ∧
  (∀ r ∈ s.readers, readerWF s r.1 r.2) ∧
  (alookup s.currentGen s.readers).isSome = true ∧
  (alookup (logName s.currentGen) s.dir).isSome = true ∧
  s.writerOffset = (fileAt s s.currentGen).length ∧
  alookup (logName (s.currentGen + 1)) s.dir = none ∧
  alookup (logName (s.currentGen + 2)) s.dir = none ∧
  s.currentGen + 2 < 2 ^ 64

/-- A client-visible engine call, with its write outcome, for running
operation sequences. -/
inductive Op where
  | set : String → String → Bool → List Token → Op
  | get : String → Op
  | remove : String → Bool → List Token → Op
  | compact : Op
  deriving DecidableEq, Repr

/-- The state after one engine call (its result discarded). -/
def applyOp (s : KvStore) : Op → KvStore
  | .set k v w j => (KvStore.set s k v w j).2
  | .get k => (KvStore.get s k).2
  | .remove k w j => (KvStore.remove s k w j).2
  | .compact => (KvStore.compact s).2

/-- The state after a sequence of engine calls. -/
def applyOps (s : KvStore) (ops : List Op) : KvStore := ops.foldl applyOp s

/-- Whether an operation is a `set` of the given key. -/
def Op.setsKey (k : String) : Op → Bool
  | .set k' _ _ _ => k' = k
  | _ => false

instance {ε α : Type} [DecidableEq ε] [DecidableEq α] : DecidableEq (Except ε α) :=
  fun x y =>
    match x, y with
    | .ok a, .ok b =>
        if h : a = b then .isTrue (by rw [h]) else .isFalse (fun hh => h (Except.ok.inj hh))
    | .error a, .error b =>
        if h : a = b then .isTrue (by rw [h]) else .isFalse (fun hh => h (Except.error.inj hh))
    | .ok _, .error _ => .isFalse (fun hh => Except.noConfusion hh)
    | .error _, .ok _ => .isFalse (fun hh => Except.noConfusion hh)

/-- The engine state `KvStore::open` produces on an empty directory. -/
def store1 : KvStore :=
  { dir := [("1.log", [])], readers := [(1, ⟨0, 0⟩)], writerOffset := 0,
    index := [], load := true, currentGen := 1, uncompacted := 0 }

/-- A small reachable state: open an empty directory, set two keys,
read the first one back.  The `get` seeks generation 1's reader to
offset `0` and leaves its cursor at `3`, while the record of `"a"`
also starts at offset `0` — the configuration on which the
conditional seek of `compact` goes wrong. -/
def bugStore : KvStore :=
  applyOps store1 [.set "a" "x" true [], .set "b" "y" true [], .get "a"]

/-- The engine state `KvStore::open` produces on a directory holding a
single empty log file `1.log`. -/
def store2 : KvStore :=
  { dir := [("1.log", []), ("2.log", [])],
    readers := [(1, ⟨0, 0⟩), (2, ⟨0, 0⟩)], writerOffset := 0,
    index := [], load := true, currentGen := 2, uncompacted := 0 }

/-- A token list that is a concatenation of serialized `Set` records
(the shape of a compaction-generation log file). -/
inductive SetStream : List Token → Prop where
  | nil : SetStream []
  | cons (j w : String) (l : List Token) : SetStream l →
      SetStream (Token.setTag :: Token.str j :: Token.str w :: l)

/-- A concatenation of serialized `Set` records none of which sets the
key `k`. -/
inductive SetStreamNK (k : String) : List Token → Prop where
  | nil : SetStreamNK k []
  | cons (j w : String) (l : List Token) : j ≠ k → SetStreamNK k l →
      SetStreamNK k (Token.setTag :: Token.str j :: Token.str w :: l)

/-- A concatenation of serialized `Set` records whose keys all lie in
`K`. -/
inductive SetStreamKeys (K : List String) : List Token → Prop where
  | nil : SetStreamKeys K []
  | cons (j w : String) (l : List Token) : j ∈ K → SetStreamKeys K l →
      SetStreamKeys K (Token.setTag :: Token.str j :: Token.str w :: l)

/-- The store inside an `ok` outcome (a dummy unloaded store
otherwise), for stating concrete open/set/reopen runs without
binders. -/
def theStore : Except Fault KvStore → KvStore
  | .ok s => s
  | .error _ => ⟨[], [], 0, [], false, 0, 0⟩

/-- Reader-state invariant threaded through the compaction loop: every
reader other than the compaction generation's own either still has
offset field `0` with its cursor at `0` or at/past end of file, or its
offset field points at the serialized `Set` record of a key outside
`K` (an already-copied key). -/
def RInv (cgen : Nat) (d : Dir) (K : List String) (rd : List (Nat × RState)) : Prop :=
  ∀ p ∈ rd, p.1 ≠ cgen →
    (p.2.offset = 0 ∧ (p.2.pos = 0 ∨
      ((alookup (logName p.1) d).getD []).length ≤ p.2.pos)) ∨
    (∃ key' w', key' ∉ K ∧
      ((((alookup (logName p.1) d).getD []).drop p.2.offset).take 3 =
        encodeCommand (.set key' w')))

theorem alookup_aupdate_self {α β : Type} [DecidableEq α] (k : α) (v : β) (l : List (α × β)) :
    alookup k (aupdate k v l) = some v := by
  induction l with
  | nil => simp [alookup, aupdate]
  | cons p t ih =>
    by_cases h : p.1 = k
    · simp [aupdate, alookup, h]
    · simp [aupdate, alookup, h, ih]

theorem alookup_cons_self {α β : Type} [DecidableEq α] (k : α) (v : β)
    (t : List (α × β)) : alookup k ((k, v) :: t) = some v := by
  simp [alookup]

theorem alookup_cons_ne {α β : Type} [DecidableEq α] {a k : α} (v : β)
    (t : List (α × β)) (h : a ≠ k) : alookup k ((a, v) :: t) = alookup k t := by
  simp [alookup, h]

theorem alookup_aupdate_of_ne {α β : Type} [DecidableEq α] {k k' : α} (v : β)
    (l : List (α × β)) (h : k' ≠ k) : alookup k' (aupdate k v l) = alookup k' l := by
  induction l with
  | nil => simp [alookup, aupdate, Ne.symm h]
  | cons p t ih =>
    by_cases hp : p.1 = k
    · subst hp
      simp [aupdate, alookup, Ne.symm h]
    · simp [aupdate, hp, alookup, ih]

theorem alookup_aerase_of_ne {α β : Type} [DecidableEq α] {k k' : α}
    (l : List (α × β)) (h : k' ≠ k) : alookup k' (aerase k l) = alookup k' l := by
  induction l with
  | nil => simp [aerase]
  | cons p t ih =>
    by_cases hp : p.1 = k
    · subst hp
      simp [aerase, alookup, Ne.symm h]
    · simp [aerase, hp, alookup, ih]

theorem alookup_eq_none_of_not_mem_akeys {α β : Type} [DecidableEq α] {k : α}
    {l : List (α × β)} (h : k ∉ akeys l) : alookup k l = none := by
  induction l with
  | nil => simp [alookup]
  | cons p t ih =>
    simp only [akeys, List.map_cons, List.mem_cons, not_or] at h
    simp [alookup, Ne.symm h.1, ih (by simpa [akeys] using h.2)]

theorem alookup_aerase_self {α β : Type} [DecidableEq α] (k : α)
    {l : List (α × β)} (h : NoDupKeys l) : alookup k (aerase k l) = none := by
  induction l with
  | nil => simp [aerase, alookup]
  | cons p t ih =>
    simp only [NoDupKeys, akeys, List.map_cons, List.nodup_cons] at h
    by_cases hp : p.1 = k
    · subst hp
      simp only [aerase, if_pos rfl]
      exact alookup_eq_none_of_not_mem_akeys h.1
    · simp [aerase, hp, alookup, ih h.2]

theorem akeys_aerase_sublist {α β : Type} [DecidableEq α] (k : α) (l : List (α × β)) :
    (akeys (aerase k l)).Sublist (akeys l) := by
  induction l with
  | nil => simp [aerase]
  | cons p t ih =>
    by_cases hp : p.1 = k
    · simp only [aerase, if_pos hp, akeys, List.map_cons]
      exact (List.sublist_cons_self _ _)
    · simpa [aerase, hp, akeys] using ih.cons₂ p.1

theorem noDupKeys_aerase {α β : Type} [DecidableEq α] (k : α)
    {l : List (α × β)} (h : NoDupKeys l) : NoDupKeys (aerase k l) :=
  (akeys_aerase_sublist k l).nodup h

theorem akeys_aupdate_of_mem {α β : Type} [DecidableEq α] {k : α} (v : β)
    {l : List (α × β)} (h : k ∈ akeys l) : akeys (aupdate k v l) = akeys l := by
  induction l with
  | nil => simp [akeys] at h
  | cons p t ih =>
    by_cases hp : p.1 = k
    · simp [aupdate, hp, akeys]
    · simp only [akeys, List.map_cons, List.mem_cons] at h
      rcases h with h | h
      · exact absurd h.symm hp
      · have hih := ih (by simpa [akeys] using h)
        simp only [akeys] at hih
        simp [aupdate, hp, akeys, hih]

theorem akeys_aupdate_of_not_mem {α β : Type} [DecidableEq α] {k : α} (v : β)
    {l : List (α × β)} (h : k ∉ akeys l) : akeys (aupdate k v l) = akeys l ++ [k] := by
  induction l with
  | nil => simp [aupdate, akeys]
  | cons p t ih =>
    simp only [akeys, List.map_cons, List.mem_cons, not_or] at h
    have hih := ih (by simpa [akeys] using h.2)
    simp only [akeys] at hih
    simp [aupdate, Ne.symm h.1, akeys, hih]

theorem noDupKeys_aupdate {α β : Type} [DecidableEq α] (k : α) (v : β)
    {l : List (α × β)} (h : NoDupKeys l) : NoDupKeys (aupdate k v l) := by
  by_cases hm : k ∈ akeys l
  · simpa [NoDupKeys, akeys_aupdate_of_mem v hm] using h
  · simpa [NoDupKeys, akeys_aupdate_of_not_mem v hm, List.nodup_append] using
      ⟨h, fun hh => hm hh⟩

theorem remove_absent (s : KvStore) (key : String) (wOk : Bool) (junk : List Token)
    (hl : s.load = true) (h : alookup key s.index = none) :
    KvStore.remove s key wOk junk = (.error (.err .keyNotFound), s) := by
  unfold KvStore.remove
  simp [hl, h]

theorem get_absent (s : KvStore) (key : String)
    (hl : s.load = true) (h : alookup key s.index = none) :
    KvStore.get s key = (.ok none, s) := by
  unfold KvStore.get
  simp [hl, h]

theorem compactLoop_error_panicked (cgen : Nat) (entries : Index) (f : Fault) :
    ∀ (d : Dir) (rd : List (Nat × RState)) (off : Nat),
      KvStore.compactLoop cgen entries d rd off = .error f → ∃ m, f = .panicked m := by
  induction entries with
  | nil => intro d rd off h; simp [KvStore.compactLoop] at h
  | cons p rest ih =>
    intro d rd off h
    obtain ⟨key, ops⟩ := p
    unfold KvStore.compactLoop at h
    cases hl : alookup ops.gen rd with
    | none =>
      rw [hl] at h
      simp only [Except.error.injEq] at h
      exact ⟨_, h.symm⟩
    | some r =>
      rw [hl] at h
      simp only at h
      cases hrec : KvStore.compactLoop cgen rest
          (dirAppend d (logName cgen)
            ((((alookup (logName ops.gen) d).getD []).drop
              (if r.offset ≠ ops.offset then RState.mk ops.offset ops.offset else r).pos).take ops.len))
          (aupdate ops.gen
            ⟨(if r.offset ≠ ops.offset then RState.mk ops.offset ops.offset else r).offset,
             (if r.offset ≠ ops.offset then RState.mk ops.offset ops.offset else r).pos +
               ((((alookup (logName ops.gen) d).getD []).drop
                 (if r.offset ≠ ops.offset then RState.mk ops.offset ops.offset else r).pos).take ops.len).length⟩ rd)
          (off + ((((alookup (logName ops.gen) d).getD []).drop
                 (if r.offset ≠ ops.offset then RState.mk ops.offset ops.offset else r).pos).take ops.len).length) with
      | error f' =>
        rw [hrec] at h
        simp only [Except.error.injEq] at h
        subst h
        exact ih _ _ _ hrec
      | ok x =>
        rw [hrec] at h
        simp at h

theorem compact_error_panicked (s : KvStore) (f : Fault)
    (h : (KvStore.compact s).1 = .error f) : ∃ m, f = .panicked m := by
  unfold KvStore.compact at h
  by_cases hg : s.currentGen + 2 < 2 ^ 64
  · rw [if_pos hg] at h
    simp only at h
    cases hrec : KvStore.compactLoop (s.currentGen + 1) s.index
        (newLogFile (newLogFile s.dir s.readers (s.currentGen + 2)).1
          (newLogFile s.dir s.readers (s.currentGen + 2)).2.1 (s.currentGen + 1)).1
        (newLogFile (newLogFile s.dir s.readers (s.currentGen + 2)).1
          (newLogFile s.dir s.readers (s.currentGen + 2)).2.1 (s.currentGen + 1)).2.1 0 with
    | error f' =>
      rw [hrec] at h
      simp only at h
      cases Except.error.inj h
      exact compactLoop_error_panicked _ _ _ _ _ _ hrec
    | ok x =>
      obtain ⟨idx, d3, rd3, off⟩ := x
      rw [hrec] at h
      simp at h
  · rw [if_neg hg] at h
    simp only at h
    exact ⟨_, (Except.error.inj h.symm)⟩

/-- Claim C7: `get` never mutates the observable store state — the
directory (on-disk logs), the index, `uncompacted` and the current
generation are unchanged by the call, whatever it returns. -/
theorem c7_get_never_mutates (s : KvStore) (key : String) :
    (KvStore.get s key).2.dir = s.dir ∧ (KvStore.get s key).2.index = s.index ∧
    (KvStore.get s key).2.uncompacted = s.uncompacted ∧
    (KvStore.get s key).2.currentGen = s.currentGen := by
  unfold KvStore.get
  split
  · exact ⟨rfl, rfl, rfl, rfl⟩
  · split
    · exact ⟨rfl, rfl, rfl, rfl⟩
    · split
      · exact ⟨rfl, rfl, rfl, rfl⟩
      · dsimp only
        split <;> exact ⟨rfl, rfl, rfl, rfl⟩

/-- Claim C4: removing an absent key returns `Err(KeyNotFound)` and
leaves the store — on-disk log, index, `uncompacted`, and all other
state — entirely unchanged. -/
theorem c4_remove_absent_unchanged (s : KvStore) (key : String) (wOk : Bool)
    (junk : List Token) (hl : s.load = true) (h : alookup key s.index = none) :
    KvStore.remove s key wOk junk = (.error (.err .keyNotFound), s) :=
  remove_absent s key wOk junk hl h

/-- Claim C4 witness: a concrete absent-key removal. -/
theorem c4_witness :
    KvStore.remove store1 "a" true [] = (.error (.err .keyNotFound), store1) :=
  c4_remove_absent_unchanged store1 "a" true [] (by decide) (by decide)

/-- Claim C10: when `set` returns a `KvsError` (a failure of encoding,
writing or flushing the record), the in-memory state is untouched: no
index entry is inserted or replaced, `uncompacted` is not increased,
and no compaction runs (generation counter and readers unchanged). -/
theorem c10_set_error_leaves_memory (s : KvStore) (key val : String) (wOk : Bool)
    (junk : List Token) (e : KvsError)
    (h : (KvStore.set s key val wOk junk).1 = .error (.err e)) :
    (KvStore.set s key val wOk junk).2.index = s.index ∧
    (KvStore.set s key val wOk junk).2.uncompacted = s.uncompacted ∧
    (KvStore.set s key val wOk junk).2.currentGen = s.currentGen ∧
    (KvStore.set s key val wOk junk).2.readers = s.readers := by
  unfold KvStore.set at h ⊢
  by_cases hl : !s.load
  · rw [if_pos hl] at h
    simp at h
  · rw [if_neg hl] at h
    rw [if_neg hl]
    by_cases hw : !wOk
    · rw [if_pos hw] at h
      rw [if_pos hw]
      exact ⟨rfl, rfl, rfl, rfl⟩
    · rw [if_neg hw] at h
      rw [if_neg hw]
      exfalso
      dsimp only at h
      split at h
      · split at h
        · exact Except.noConfusion h
        · rename_i heq
          obtain ⟨m, hm⟩ := compact_error_panicked _ _ (congrArg Prod.fst heq)
          rw [Except.error.inj h] at hm
          exact Fault.noConfusion hm
      · exact Except.noConfusion h

/-- Claim C10 witness: a concrete failing write during `set`. -/
theorem c10_witness :
    (KvStore.set store1 "a" "x" false [Token.setTag]).2.index = store1.index ∧
    (KvStore.set store1 "a" "x" false [Token.setTag]).2.uncompacted = store1.uncompacted ∧
    (KvStore.set store1 "a" "x" false [Token.setTag]).2.currentGen = store1.currentGen ∧
    (KvStore.set store1 "a" "x" false [Token.setTag]).2.readers = store1.readers :=
  c10_set_error_leaves_memory store1 "a" "x" false [Token.setTag] (.io "write failed")
    (by decide)

/-- Claim C3 (code bug evidence): on the reachable state `bugStore`
(open an empty directory, set `a`, set `b`, read `a` back), the key
`a` reads as `"x"` before compaction, compaction returns `Ok` and
resets `uncompacted` to `0`, but afterwards `get a` returns the value
of `b` — compaction does not preserve the get semantics, because the
conditional seek trusts the reader offset field that `Read::read`
never advances. -/
theorem c3_compaction_corrupts_get :
    (KvStore.get bugStore "a").1 = .ok (some "x") ∧
    (KvStore.compact bugStore).1 = .ok () ∧
    (KvStore.get (KvStore.compact bugStore).2 "a").1 = .ok (some "y") ∧
    (KvStore.compact bugStore).2.uncompacted = 0 := by decide

/-- Claim C9 (code bug evidence): `Client::remove` appends exactly one
`Remove` request to the wire but returns `Ok(())` without consuming
the pending response, even when that response is
`Err("Key not found")` — no error is surfaced to the caller. -/
theorem c9_client_remove_ignores_response :
    clientRemove ⟨[], [Response.err "Key not found"]⟩ "a" =
      (.ok (), ⟨[Request.remove "a"], [Response.err "Key not found"]⟩) := rfl

/-- Claim C8: the connection loop answers a successful `Set` or
`Remove` with `Ok(null)`, answers a `Get` with the engine's
`Ok(value-or-null)`, and answers a `Remove` of an absent key with
`Err("Key not found")`. -/
theorem c8_server_responses (s : KvStore) (k v : String) (wOk : Bool) (junk : List Token) :
    ((KvStore.set s k v wOk junk).1 = .ok () →
      (serveOne s (.set k v) wOk junk).1 = some (.ok none)) ∧
    ((KvStore.remove s k wOk junk).1 = .ok () →
      (serveOne s (.remove k) wOk junk).1 = some (.ok none)) ∧
    (∀ r, (KvStore.get s k).1 = .ok r →
      (serveOne s (.get k) wOk junk).1 = some (.ok r)) ∧
    (s.load = true → alookup k s.index = none →
      (serveOne s (.remove k) wOk junk).1 = some (.err "Key not found")) := by
  refine ⟨?_, ?_, ?_, ?_⟩
  · intro h
    cases hc : KvStore.set s k v wOk junk with
    | mk r s' =>
      have hr : r = .ok () := by rw [hc] at h; exact h
      subst hr
      unfold serveOne
      dsimp only
      rw [hc]
  · intro h
    cases hc : KvStore.remove s k wOk junk with
    | mk r s' =>
      have hr : r = .ok () := by rw [hc] at h; exact h
      subst hr
      unfold serveOne
      dsimp only
      rw [hc]
  · intro r h
    cases hc : KvStore.get s k with
    | mk res s' =>
      have hr : res = .ok r := by rw [hc] at h; exact h
      subst hr
      unfold serveOne
      dsimp only
      rw [hc]
  · intro hl hnone
    unfold serveOne
    dsimp only
    rw [remove_absent s k wOk junk hl hnone]
    rfl

theorem digitsRevAux_congr : ∀ (f1 f2 n : Nat), n < f1 → n < f2 →
    digitsRevAux f1 n = digitsRevAux f2 n := by
  intro f1
  induction f1 with
  | zero => intro f2 n h1 _; exact absurd h1 (Nat.not_lt_zero n)
  | succ k ih =>
    intro f2 n h1 h2
    cases f2 with
    | zero => exact absurd h2 (Nat.not_lt_zero n)
    | succ m =>
      by_cases hn : n < 10
      · simp [digitsRevAux, hn]
      · have hd : n / 10 < n := Nat.div_lt_self (by omega) (by omega)
        simp only [digitsRevAux, if_neg hn]
        rw [ih m (n / 10) (by omega) (by omega)]

theorem digitsRevAux_ne_nil (n : Nat) : digitsRevAux (n + 1) n ≠ [] := by
  by_cases hn : n < 10 <;> simp [digitsRevAux, hn]

theorem natRepr_ne_nil (n : Nat) : natRepr n ≠ [] := by
  unfold natRepr
  simp [digitsRevAux_ne_nil n]

theorem digitVal_digitChar {d : Nat} (h : d < 10) : digitVal (digitChar d) = d := by
  interval_cases d <;> decide

theorem isDigit_digitChar {d : Nat} (h : d < 10) : (digitChar d).isDigit = true := by
  interval_cases d <;> decide

theorem mem_digitsRevAux_isDigit : ∀ (f n : Nat), n < f →
    ∀ c ∈ digitsRevAux f n, c.isDigit = true := by
  intro f
  induction f with
  | zero => intro n h; exact absurd h (Nat.not_lt_zero n)
  | succ k ih =>
    intro n h c hc
    by_cases hn : n < 10
    · simp only [digitsRevAux, if_pos hn, List.mem_singleton] at hc
      subst hc
      exact isDigit_digitChar hn
    · simp only [digitsRevAux, if_neg hn, List.mem_cons] at hc
      rcases hc with hc | hc
      · subst hc
        exact isDigit_digitChar (Nat.mod_lt _ (by omega))
      · have hd : n / 10 < n := Nat.div_lt_self (by omega) (by omega)
        exact ih (n / 10) (by omega) c hc

theorem mem_natRepr_isDigit (n : Nat) : ∀ c ∈ natRepr n, c.isDigit = true := by
  intro c hc
  rw [natRepr, List.mem_reverse] at hc
  exact mem_digitsRevAux_isDigit (n + 1) n (Nat.lt_succ_self n) c hc

theorem foldl_digitsRevAux : ∀ (f n acc : Nat), n < f →
    ((digitsRevAux f n).reverse).foldl (fun a c => 10 * a + digitVal c) acc =
      acc * 10 ^ (digitsRevAux f n).length + n := by
  intro f
  induction f with
  | zero => intro n acc h; exact absurd h (Nat.not_lt_zero n)
  | succ k ih =>
    intro n acc h
    by_cases hn : n < 10
    · simp [digitsRevAux, hn, digitVal_digitChar hn]
      ring
    · have hd : n / 10 < n := Nat.div_lt_self (by omega) (by omega)
      simp only [digitsRevAux, if_neg hn, List.reverse_cons, List.foldl_append,
        List.length_cons, List.foldl_cons, List.foldl_nil]
      rw [ih (n / 10) acc (by omega)]
      rw [digitVal_digitChar (Nat.mod_lt _ (by omega))]
      have hm := Nat.div_add_mod n 10
      calc 10 * (acc * 10 ^ (digitsRevAux k (n / 10)).length + n / 10) + n % 10
          = acc * (10 ^ (digitsRevAux k (n / 10)).length * 10) +
              (10 * (n / 10) + n % 10) := by ring
        _ = acc * 10 ^ ((digitsRevAux k (n / 10)).length + 1) + n := by
              rw [pow_succ]; omega

theorem natRepr_val (n : Nat) :
    (natRepr n).foldl (fun a c => 10 * a + digitVal c) 0 = n := by
  have := foldl_digitsRevAux (n + 1) n 0 (Nat.lt_succ_self n)
  simpa [natRepr] using this

theorem parseDigits_natRepr {n : Nat} (h : n < 2 ^ 64) :
    parseDigits (natRepr n) = some n := by
  unfold parseDigits
  rw [if_neg (natRepr_ne_nil n)]
  rw [if_pos (List.all_eq_true.mpr (fun c hc => mem_natRepr_isDigit n c hc))]
  simp only [natRepr_val n]
  rw [if_pos h]

theorem parseU64_natRepr {n : Nat} (h : n < 2 ^ 64) : parseU64 (natRepr n) = some n := by
  unfold parseU64
  cases hr : natRepr n with
  | nil => exact absurd hr (natRepr_ne_nil n)
  | cons c t =>
    have hc : c.isDigit = true :=
      mem_natRepr_isDigit n c (by rw [hr]; exact List.mem_cons_self c t)
    have hne : c ≠ '+' := fun he => by rw [he] at hc; exact absurd hc (by decide)
    split
    · rename_i rest heq
      injection heq with h1 h2
      exact absurd h1 hne
    · rw [← hr]
      exact parseDigits_natRepr h

theorem afterLastDot_cons_ne {c : Char} (rest : List Char) (h : c ≠ '.') :
    afterLastDot (c :: rest) = afterLastDot rest := by
  rw [afterLastDot.eq_def]
  split
  · rename_i heq
    exact List.noConfusion heq
  · rename_i rest' heq
    injection heq with h1 h2
    exact absurd h1 h
  · rename_i hd tl hne heq
    injection heq with h1 h2
    rw [h2]

theorem afterLastDot_digits_append (t : List Char)
    (h : ∀ c ∈ t, c.isDigit = true) :
    afterLastDot (t ++ ".log".data) = some "log".data := by
  induction t with
  | nil => rfl
  | cons c t ih =>
    have hc := h c (List.mem_cons_self c t)
    have hne : c ≠ '.' := fun he => by rw [he] at hc; exact absurd hc (by decide)
    rw [List.cons_append, afterLastDot_cons_ne _ hne]
    exact ih (fun c' hc' => h c' (List.mem_cons_of_mem c hc'))

theorem stripLogRev_eq_self {l : List Char} (h : ∀ c ∈ l, c.isDigit = true) :
    stripLogRev l = l := by
  rw [stripLogRev.eq_def]
  split
  · rename_i rest
    have hg := h 'g' (List.mem_cons_self _ _)
    exact absurd hg (by decide)
  · rfl

theorem logName_data (g : Nat) : (logName g).data = natRepr g ++ ".log".data := rfl

theorem trimLog_logName (g : Nat) : trimLog (logName g).data = natRepr g := by
  rw [logName_data, trimLog, List.reverse_append]
  show (stripLogRev ('g' :: 'o' :: 'l' :: '.' :: (natRepr g).reverse)).reverse = natRepr g
  rw [show stripLogRev ('g' :: 'o' :: 'l' :: '.' :: (natRepr g).reverse) =
        stripLogRev ((natRepr g).reverse) from rfl]
  rw [stripLogRev_eq_self
    (fun c hc => mem_natRepr_isDigit g c (List.mem_reverse.mp hc))]
  exact List.reverse_reverse _

theorem extOf_logName (g : Nat) : extOf (logName g).data = some "log".data := by
  rw [logName_data]
  cases hr : natRepr g with
  | nil => exact absurd hr (natRepr_ne_nil g)
  | cons c t =>
    rw [List.cons_append]
    show afterLastDot (t ++ ".log".data) = some "log".data
    exact afterLastDot_digits_append t
      (fun c' hc' => mem_natRepr_isDigit g c'
        (by rw [hr]; exact List.mem_cons_of_mem c hc'))

theorem parseGenName_logName {g : Nat} (h : g < 2 ^ 64) :
    parseGenName (logName g) = some g := by
  unfold parseGenName
  rw [extOf_logName, if_pos rfl, trimLog_logName]
  exact parseU64_natRepr h

theorem natRepr_inj {n m : Nat} (h : natRepr n = natRepr m) : n = m := by
  have := congrArg (List.foldl (fun a c => 10 * a + digitVal c) 0) h
  rwa [natRepr_val, natRepr_val] at this

theorem logName_inj {g g' : Nat} (h : logName g = logName g') : g = g' := by
  have hd := congrArg String.data h
  rw [logName_data, logName_data] at hd
  exact natRepr_inj (List.append_cancel_right hd)

theorem parseGenName_eq_some {name : String} {g : Nat} :
    parseGenName name = some g ↔
      extOf name.data = some "log".data ∧ parseU64 (trimLog name.data) = some g := by
  unfold parseGenName
  by_cases hx : extOf name.data = some "log".data
  · simp [hx]
  · simp [hx]

theorem genList_sorted (d : Dir) : List.Sorted (· ≤ ·) (genList d) :=
  List.sorted_insertionSort _ _

theorem mem_genList {d : Dir} {g : Nat} :
    g ∈ genList d ↔ ∃ p ∈ d, parseGenName p.1 = some g := by
  unfold genList
  rw [List.mem_insertionSort, List.mem_filterMap]
  constructor
  · rintro ⟨name, hmem, hparse⟩
    obtain ⟨p, hp, rfl⟩ := List.mem_map.mp hmem
    exact ⟨p, hp, hparse⟩
  · rintro ⟨p, hp, hparse⟩
    exact ⟨p.1, List.mem_map.mpr ⟨p, hp, rfl⟩, hparse⟩

theorem foldr_max_le_iff {l : List Nat} {b : Nat} :
    l.foldr max 0 ≤ b ↔ ∀ g ∈ l, g ≤ b := by
  induction l with
  | nil => simp
  | cons a t ih => simp [Nat.max_le, ih]

theorem getLast_sorted_eq_foldr_max : ∀ {l : List Nat},
    List.Sorted (· ≤ ·) l → l.getLast?.getD 0 = l.foldr max 0 := by
  intro l
  induction l with
  | nil => intro _; rfl
  | cons a t ih =>
    intro h
    cases t with
    | nil => simp [List.getLast?]
    | cons b t2 =>
      have hs := List.sorted_cons.mp h
      rw [List.getLast?_cons_cons, ih hs.2, List.foldr_cons]
      have hb : b ≤ (b :: t2).foldr max 0 := by
        rw [List.foldr_cons]; exact le_max_left _ _
      have ha : a ≤ (b :: t2).foldr max 0 :=
        le_trans (hs.1 b (List.mem_cons_self b t2)) hb
      exact (max_eq_right ha).symm

theorem openStore_currentGen {d : Dir} {s : KvStore} (h : openStore d = .ok s) :
    s.currentGen = (genList d).getLast?.getD 0 + 1 := by
  unfold openStore at h
  cases hrep : replayGens d (genList d) [] [] 0 with
  | error f => rw [hrep] at h; exact Except.noConfusion h
  | ok x =>
    obtain ⟨rd, idx, unc⟩ := x
    rw [hrep] at h
    simp only at h
    split at h
    · rw [← Except.ok.inj h]
    · exact Except.noConfusion h

/-- Claim C6 counterexample: the file `1.log.log` has stem `1.log`,
which does not parse as an unsigned integer, so by the claim it should
be ignored (leaving no generation and a fresh generation 1); but
`gen_list` strips every trailing `.log` occurrence from the file name
and yields generation `1`, and `open` then fails trying to open the
nonexistent canonical file `1.log`. -/
theorem c6_counterexample :
    genList [("1.log.log", ([] : List Token))] = [1] ∧
    specStemGens [("1.log.log", ([] : List Token))] = [] ∧
    openStore [("1.log.log", ([] : List Token))] =
      .error (.err (.io "No such file or directory")) := by decide

/-- Claim C6 (amended): on open the engine enumerates the `.log`
files; the generation of such a file is obtained by stripping every
trailing `.log` occurrence from the full file name (not the stem) and
parsing the remainder as `u64` (so `1.log.log` means generation `1`),
ignoring files where this parse fails; the parsed generations are
replayed ascending (`genList` is sorted and `openStore` replays it in
order); and the new writable generation is `max(parsed) + 1`, or `1`
when no generation parses. -/
theorem c6_open_gens_amended (d : Dir) (s : KvStore) (h : openStore d = .ok s) :
    List.Sorted (· ≤ ·) (genList d) ∧
    (∀ g : Nat, g ∈ genList d ↔ ∃ p ∈ d, extOf p.1.data = some "log".data ∧
      parseU64 (trimLog p.1.data) = some g) ∧
    s.currentGen = (genList d).foldr max 0 + 1 := by
  refine ⟨genList_sorted d, ?_, ?_⟩
  · intro g
    rw [mem_genList]
    constructor
    · rintro ⟨p, hp, hparse⟩
      exact ⟨p, hp, parseGenName_eq_some.mp hparse⟩
    · rintro ⟨p, hp, hparse⟩
      exact ⟨p, hp, parseGenName_eq_some.mpr hparse⟩
  · rw [openStore_currentGen h, getLast_sorted_eq_foldr_max (genList_sorted d)]

/-- Claim C6 witness: a directory with one empty log file `1.log`
opens with writable generation `max {1} + 1 = 2`. -/
theorem c6_witness :
    store2.currentGen = (genList [("1.log", ([] : List Token))]).foldr max 0 + 1 :=
  (c6_open_gens_amended [("1.log", [])] store2 (by decide)).2.2

theorem alookup_none_iff {α β : Type} [DecidableEq α] {k : α} {l : List (α × β)} :
    alookup k l = none ↔ k ∉ akeys l := by
  induction l with
  | nil => simp [alookup, akeys]
  | cons p t ih =>
    by_cases hp : p.1 = k
    · simp [alookup, hp, akeys]
    · simp [alookup, hp, akeys, Ne.symm hp, ih]

theorem compactLoop_akeys (cgen : Nat) : ∀ (entries : Index) (d : Dir)
    (rd : List (Nat × RState)) (off : Nat) (idx : Index) (d' : Dir)
    (rd' : List (Nat × RState)) (off' : Nat),
    KvStore.compactLoop cgen entries d rd off = .ok (idx, d', rd', off') →
    akeys idx = akeys entries := by
  intro entries
  induction entries with
  | nil =>
    intro d rd off idx d' rd' off' h
    simp only [KvStore.compactLoop] at h
    obtain ⟨h1, -, -, -⟩ := Prod.mk.injEq .. ▸ Except.ok.inj h
    rw [← h1]
  | cons p rest ih =>
    intro d rd off idx d' rd' off' h
    obtain ⟨key, ops⟩ := p
    unfold KvStore.compactLoop at h
    cases hl : alookup ops.gen rd with
    | none => rw [hl] at h; exact Except.noConfusion h
    | some r =>
      rw [hl] at h
      simp only at h
      split at h
      · exact Except.noConfusion h
      · rename_i x idx0 d2 rd2 off2 heq
        have hx := Except.ok.inj h
        obtain ⟨h1, h2, h3, h4⟩ := Prod.mk.injEq .. ▸ hx
        have hik := ih _ _ _ _ _ _ _ heq
        rw [← h1]
        simp only [akeys, List.map_cons]
        simp only [akeys] at hik
        rw [hik]

theorem compact_keys_load (s : KvStore) :
    akeys (KvStore.compact s).2.index = akeys s.index ∧
    (KvStore.compact s).2.load = s.load := by
  unfold KvStore.compact
  by_cases hg : s.currentGen + 2 < 2 ^ 64
  · rw [if_pos hg]
    simp only
    split
    · exact ⟨rfl, rfl⟩
    · rename_i x idx d3 rd3 off heq
      exact ⟨compactLoop_akeys _ _ _ _ _ _ _ _ _ heq, rfl⟩
  · rw [if_neg hg]
    exact ⟨rfl, rfl⟩

theorem get_index_load (s : KvStore) (key : String) :
    (KvStore.get s key).2.index = s.index ∧ (KvStore.get s key).2.load = s.load := by
  unfold KvStore.get
  split
  · exact ⟨rfl, rfl⟩
  · split
    · exact ⟨rfl, rfl⟩
    · split
      · exact ⟨rfl, rfl⟩
      · dsimp only
        split <;> exact ⟨rfl, rfl⟩

theorem set_keys_cases (s : KvStore) (k' v : String) (w : Bool) (j : List Token) :
    (KvStore.set s k' v w j).2.load = s.load ∧
    (akeys (KvStore.set s k' v w j).2.index = akeys s.index ∨
      ∃ o : CommandOps, akeys (KvStore.set s k' v w j).2.index =
        akeys (aupdate k' o s.index)) := by
  unfold KvStore.set
  split
  · exact ⟨rfl, Or.inl rfl⟩
  split
  · exact ⟨rfl, Or.inl rfl⟩
  dsimp only
  cases hold : alookup k' s.index with
  | some old =>
    dsimp only
    split
    · split
      · rename_i u s3 heq
        rw [← congrArg Prod.snd heq]
        exact ⟨(compact_keys_load _).2, Or.inr ⟨_, (compact_keys_load _).1⟩⟩
      · rename_i f s3 heq
        rw [← congrArg Prod.snd heq]
        exact ⟨(compact_keys_load _).2, Or.inr ⟨_, (compact_keys_load _).1⟩⟩
    · exact ⟨rfl, Or.inr ⟨_, rfl⟩⟩
  | none =>
    dsimp only
    split
    · split
      · rename_i u s3 heq
        rw [← congrArg Prod.snd heq]
        exact ⟨(compact_keys_load _).2, Or.inr ⟨_, (compact_keys_load _).1⟩⟩
      · rename_i f s3 heq
        rw [← congrArg Prod.snd heq]
        exact ⟨(compact_keys_load _).2, Or.inr ⟨_, (compact_keys_load _).1⟩⟩
    · exact ⟨rfl, Or.inr ⟨_, rfl⟩⟩

theorem set_preserves_absent (s : KvStore) (k' v : String) (w : Bool) (j : List Token)
    (k : String) (hne : k' ≠ k) (hnd : NoDupKeys s.index)
    (hk : alookup k s.index = none) :
    (KvStore.set s k' v w j).2.load = s.load ∧
    NoDupKeys (KvStore.set s k' v w j).2.index ∧
    alookup k (KvStore.set s k' v w j).2.index = none := by
  obtain ⟨hload, hkeys⟩ := set_keys_cases s k' v w j
  refine ⟨hload, ?_, ?_⟩
  · rcases hkeys with h | ⟨o, h⟩
    · simp only [NoDupKeys]
      rw [h]
      exact hnd
    · simp only [NoDupKeys]
      rw [h]
      exact noDupKeys_aupdate k' o hnd
  · rcases hkeys with h | ⟨o, h⟩
    · rw [alookup_none_iff, h]
      exact alookup_none_iff.mp hk
    · rw [alookup_none_iff, h]
      refine alookup_none_iff.mp ?_
      rw [alookup_aupdate_of_ne o s.index (Ne.symm hne)]
      exact hk

theorem remove_preserves_absent (s : KvStore) (k' : String) (w : Bool) (j : List Token)
    (k : String) (hnd : NoDupKeys s.index) (hk : alookup k s.index = none) :
    (KvStore.remove s k' w j).2.load = s.load ∧
    NoDupKeys (KvStore.remove s k' w j).2.index ∧
    alookup k (KvStore.remove s k' w j).2.index = none := by
  have herase : alookup k (aerase k' s.index) = none := by
    rw [alookup_none_iff]
    intro hmem
    exact alookup_none_iff.mp hk ((akeys_aerase_sublist k' s.index).mem hmem)
  unfold KvStore.remove
  split
  · exact ⟨rfl, hnd, hk⟩
  · split
    · split
      · exact ⟨rfl, hnd, hk⟩
      · dsimp only
        split
        · exact ⟨rfl, noDupKeys_aerase k' hnd, herase⟩
        · exact ⟨rfl, hnd, hk⟩
    · exact ⟨rfl, hnd, hk⟩

theorem applyOp_preserves_absent (s : KvStore) (k : String) (op : Op)
    (hop : Op.setsKey k op = false) (hnd : NoDupKeys s.index)
    (hk : alookup k s.index = none) :
    (applyOp s op).load = s.load ∧ NoDupKeys (applyOp s op).index ∧
    alookup k (applyOp s op).index = none := by
  cases op with
  | set k' v w j =>
    have hne : k' ≠ k := by
      simpa [Op.setsKey] using hop
    exact set_preserves_absent s k' v w j k hne hnd hk
  | get k' =>
    have := get_index_load s k'
    refine ⟨this.2, ?_, ?_⟩
    · simp only [applyOp, NoDupKeys]
      rw [this.1]
      exact hnd
    · simp only [applyOp]
      rw [this.1]
      exact hk
  | remove k' w j => exact remove_preserves_absent s k' w j k hnd hk
  | compact =>
    have := compact_keys_load s
    refine ⟨this.2, ?_, ?_⟩
    · simp only [applyOp, NoDupKeys]
      rw [this.1]
      exact hnd
    · simp only [applyOp]
      rw [alookup_none_iff, this.1]
      exact alookup_none_iff.mp hk

theorem applyOps_preserves_absent (k : String) : ∀ (ops : List Op) (s : KvStore),
    (∀ op ∈ ops, Op.setsKey k op = false) → NoDupKeys s.index →
    alookup k s.index = none → s.load = true →
    (applyOps s ops).load = true ∧ NoDupKeys (applyOps s ops).index ∧
    alookup k (applyOps s ops).index = none := by
  intro ops
  induction ops with
  | nil => intro s _ hnd hk hl; exact ⟨hl, hnd, hk⟩
  | cons op rest ih =>
    intro s hops hnd hk hl
    have h1 := applyOp_preserves_absent s k op (hops op (List.mem_cons_self op rest)) hnd hk
    have : applyOps s (op :: rest) = applyOps (applyOp s op) rest := rfl
    rw [this]
    exact ih (applyOp s op) (fun o ho => hops o (List.mem_cons_of_mem op ho))
      h1.2.1 h1.2.2 (by rw [h1.1]; exact hl)

theorem remove_ok_state (s : KvStore) (k : String) (w : Bool) (j : List Token)
    (h : (KvStore.remove s k w j).1 = .ok ()) :
    s.load = true ∧ (KvStore.remove s k w j).2.index = aerase k s.index ∧
    (KvStore.remove s k w j).2.load = s.load := by
  unfold KvStore.remove at h ⊢
  by_cases hl : !s.load
  · rw [if_pos hl] at h
    exact Except.noConfusion h
  · rw [if_neg hl] at h
    rw [if_neg hl]
    have hload : s.load = true := by
      cases hb : s.load
      · rw [hb] at hl; exact absurd rfl hl
      · rfl
    split at h
    · split at h
      · exact Except.noConfusion h
      · dsimp only at h ⊢
        split at h
        · rename_i old hold
          split
          · exact ⟨hload, rfl, rfl⟩
          · rename_i hnone
            rw [hold] at hnone
            exact absurd rfl hnone
        · exact Except.noConfusion h
    · exact Except.noConfusion h

/-- Claim C5: after a successful `remove(k)`, every later `get(k)`
returns `Ok(None)` as long as no `set(k, _)` has been performed in
between — any sequence of other operations (sets of other keys, gets,
removes, compactions, with any write outcomes) may intervene. -/
theorem c5_remove_then_get_none (s : KvStore) (k : String) (wOk : Bool)
    (junk : List Token) (ops : List Op) (hnd : NoDupKeys s.index)
    (hrm : (KvStore.remove s k wOk junk).1 = .ok ())
    (hops : ∀ op ∈ ops, Op.setsKey k op = false) :
    (KvStore.get (applyOps (KvStore.remove s k wOk junk).2 ops) k).1 = .ok none := by
  obtain ⟨hload, hidx, hld2⟩ := remove_ok_state s k wOk junk hrm
  have h0 : alookup k (KvStore.remove s k wOk junk).2.index = none := by
    rw [hidx]
    exact alookup_aerase_self k hnd
  have hnd0 : NoDupKeys (KvStore.remove s k wOk junk).2.index := by
    simp only [NoDupKeys]
    rw [hidx]
    exact noDupKeys_aerase k hnd
  have hfin := applyOps_preserves_absent k ops (KvStore.remove s k wOk junk).2 hops hnd0 h0
    (by rw [hld2]; exact hload)
  rw [get_absent _ _ hfin.1 hfin.2.2]

/-- Claim C5 witness: set a key, remove it, run other operations
(another set, a compaction, a read), then `get` returns `None`. -/
theorem c5_witness :
    (KvStore.get (applyOps
        (KvStore.remove (KvStore.set store1 "a" "x" true []).2 "a" true []).2
        [.set "b" "y" true [], .compact, .get "b"]) "a").1 = .ok none :=
  c5_remove_then_get_none (KvStore.set store1 "a" "x" true []).2 "a" true []
    [.set "b" "y" true [], .compact, .get "b"] (by decide) (by decide) (by decide)

theorem mem_aupdate {α β : Type} [DecidableEq α] {e : α × β} {k : α} {v : β}
    {l : List (α × β)} (h : e ∈ aupdate k v l) : e = (k, v) ∨ e ∈ l := by
  induction l with
  | nil => simpa [aupdate] using h
  | cons p t ih =>
    by_cases hp : p.1 = k
    · simp only [aupdate, if_pos hp, List.mem_cons] at h
      rcases h with h | h
      · exact Or.inl h
      · exact Or.inr (List.mem_cons_of_mem p h)
    · simp only [aupdate, if_neg hp, List.mem_cons] at h
      rcases h with h | h
      · exact Or.inr (by rw [h]; exact List.mem_cons_self p t)
      · rcases ih h with h' | h'
        · exact Or.inl h'
        · exact Or.inr (List.mem_cons_of_mem p h')

theorem alookup_foldl_aerase {α β : Type} [DecidableEq α] {g : α} :
    ∀ (gens : List α) (rd : List (α × β)), (∀ g' ∈ gens, g' ≠ g) →
    alookup g (gens.foldl (fun r g' => aerase g' r) rd) = alookup g rd := by
  intro gens
  induction gens with
  | nil => intro rd _; rfl
  | cons a t ih =>
    intro rd h
    rw [List.foldl_cons, ih (aerase a rd) (fun g' hg' => h g' (List.mem_cons_of_mem a hg')),
      alookup_aerase_of_ne rd (Ne.symm (h a (List.mem_cons_self a t)))]

theorem dirAppend_self (d : Dir) (name : String) (toks : List Token) :
    alookup name (dirAppend d name toks) = some ((alookup name d).getD [] ++ toks) :=
  alookup_aupdate_self name _ d

theorem dirAppend_other (d : Dir) (name n' : String) (toks : List Token)
    (h : n' ≠ name) : alookup n' (dirAppend d name toks) = alookup n' d :=
  alookup_aupdate_of_ne _ d h

theorem compactLoop_readers_isSome (cgen : Nat) (g : Nat) :
    ∀ (entries : Index) (d : Dir) (rd : List (Nat × RState)) (off : Nat)
      (idx : Index) (d' : Dir) (rd' : List (Nat × RState)) (off' : Nat),
    KvStore.compactLoop cgen entries d rd off = .ok (idx, d', rd', off') →
    (alookup g rd).isSome = true → (alookup g rd').isSome = true := by
  intro entries
  induction entries with
  | nil =>
    intro d rd off idx d' rd' off' h hg
    simp only [KvStore.compactLoop, Except.ok.injEq, Prod.mk.injEq] at h
    obtain ⟨-, -, hrd, -⟩ := h
    rw [← hrd]
    exact hg
  | cons p rest ih =>
    intro d rd off idx d' rd' off' h hg
    obtain ⟨key, ops⟩ := p
    unfold KvStore.compactLoop at h
    cases hl : alookup ops.gen rd with
    | none => rw [hl] at h; exact Except.noConfusion h
    | some r =>
      rw [hl] at h
      simp only at h
      split at h
      · exact Except.noConfusion h
      · rename_i x idx0 d2 rd2 off2 heq
        simp only [Except.ok.injEq, Prod.mk.injEq] at h
        obtain ⟨-, -, hrd, -⟩ := h
        rw [← hrd]
        refine ih _ _ _ _ _ _ _ heq ?_
        by_cases hgg : ops.gen = g
        · rw [← hgg, alookup_aupdate_self]; rfl
        · rw [alookup_aupdate_of_ne _ rd (Ne.symm hgg)]
          exact hg

theorem compactLoop_file_grows (cgen : Nat) :
    ∀ (entries : Index) (d : Dir) (rd : List (Nat × RState)) (off : Nat)
      (idx : Index) (d' : Dir) (rd' : List (Nat × RState)) (off' : Nat),
    KvStore.compactLoop cgen entries d rd off = .ok (idx, d', rd', off') →
    ∃ suf, (alookup (logName cgen) d').getD [] =
      (alookup (logName cgen) d).getD [] ++ suf := by
  intro entries
  induction entries with
  | nil =>
    intro d rd off idx d' rd' off' h
    simp only [KvStore.compactLoop, Except.ok.injEq, Prod.mk.injEq] at h
    obtain ⟨-, hd, -, -⟩ := h
    exact ⟨[], by rw [← hd, List.append_nil]⟩
  | cons p rest ih =>
    intro d rd off idx d' rd' off' h
    obtain ⟨key, ops⟩ := p
    unfold KvStore.compactLoop at h
    cases hl : alookup ops.gen rd with
    | none => rw [hl] at h; exact Except.noConfusion h
    | some r =>
      rw [hl] at h
      simp only at h
      split at h
      · exact Except.noConfusion h
      · rename_i x idx0 d2 rd2 off2 heq
        simp only [Except.ok.injEq, Prod.mk.injEq] at h
        obtain ⟨-, hd, -, -⟩ := h
        obtain ⟨suf, hsuf⟩ := ih _ _ _ _ _ _ _ heq
        rw [← hd, hsuf, dirAppend_self]
        exact ⟨_, by rw [Option.getD_some, List.append_assoc]⟩

theorem compactLoop_key (cgen : Nat) (k : String) (kop : CommandOps) (v : String) :
    ∀ (entries : Index) (d : Dir) (rd : List (Nat × RState)) (cwOff : Nat)
      (idx : Index) (d' : Dir) (rd' : List (Nat × RState)) (off' : Nat),
    KvStore.compactLoop cgen entries d rd cwOff = .ok (idx, d', rd', off') →
    alookup k entries = some kop →
    kop.gen ≠ cgen →
    (∀ e ∈ entries, e.2.gen = kop.gen → e.2.offset = kop.offset → e.1 = k) →
    (∀ r, alookup kop.gen rd = some r → r.offset = kop.offset → r.pos = kop.offset) →
    kop.offset + kop.len ≤ ((alookup (logName kop.gen) d).getD []).length →
    (((alookup (logName kop.gen) d).getD []).drop kop.offset).take kop.len =
      encodeCommand (.set k v) →
    cwOff = ((alookup (logName cgen) d).getD []).length →
    ∃ o', alookup k idx = some ⟨cgen, o', kop.len⟩ ∧
      o' + kop.len ≤ ((alookup (logName cgen) d').getD []).length ∧
      (((alookup (logName cgen) d').getD []).drop o').take kop.len =
        encodeCommand (.set k v) := by
  intro entries
  induction entries with
  | nil =>
    intro d rd cwOff idx d' rd' off' h halook
    simp [alookup] at halook
  | cons p rest ih =>
    intro d rd cwOff idx d' rd' off' h halook hgen hoffs hreader hrange hslice hcw
    obtain ⟨key, ops⟩ := p
    unfold KvStore.compactLoop at h
    cases hl : alookup ops.gen rd with
    | none => rw [hl] at h; exact Except.noConfusion h
    | some r =>
      rw [hl] at h
      simp only at h
      split at h
      · exact Except.noConfusion h
      · rename_i x idx0 d2 rd2 off2 heq
        simp only [Except.ok.injEq, Prod.mk.injEq] at h
        obtain ⟨hidx, hd, hrd, hoff⟩ := h
        by_cases hkey : key = k
        · -- this entry is the (first) entry of `k`
          have hops : ops = kop := by
            rw [show alookup k ((key, ops) :: rest) = some ops by simp [alookup, hkey]]
              at halook
            exact Option.some.inj halook
          subst hops
          subst hkey
          -- the copy reads from the true record position
          have hr1pos :
              (if r.offset ≠ ops.offset then RState.mk ops.offset ops.offset else r).pos =
                ops.offset := by
            by_cases hro : r.offset ≠ ops.offset
            · rw [if_pos hro]
            · rw [if_neg hro]
              push_neg at hro
              exact hreader r hl hro
          have hcopied :
              (((alookup (logName ops.gen) d).getD []).drop
                (if r.offset ≠ ops.offset then RState.mk ops.offset ops.offset else r).pos).take
                  ops.len = encodeCommand (.set key v) := by
            rw [hr1pos]
            exact hslice
          have hlen3 : ops.len = 3 := by
            have h1 := congrArg List.length hcopied
            rw [hr1pos] at h1
            simp only [List.length_take, List.length_drop, encodeCommand] at h1
            simp only [List.length_cons, List.length_nil] at h1
            omega
          -- the compaction file in the recursive call starts with the copy appended
          obtain ⟨suf, hsuf⟩ := compactLoop_file_grows cgen _ _ _ _ _ _ _ _ heq
          rw [dirAppend_self, Option.getD_some] at hsuf
          refine ⟨cwOff, ?_, ?_, ?_⟩
          · rw [← hidx]
            have hlen : cwOff + ((((alookup (logName ops.gen) d).getD []).drop
                (if r.offset ≠ ops.offset then RState.mk ops.offset ops.offset else r).pos).take
                  ops.len).length - cwOff = ops.len := by
              rw [hcopied]
              simp [encodeCommand, hlen3]
            rw [alookup_cons_self, Option.some.injEq, CommandOps.mk.injEq]
            exact ⟨rfl, rfl, hlen⟩
          · rw [← hd, hsuf, hcopied]
            simp only [encodeCommand, List.length_append, List.length_cons, List.length_nil]
            omega
          · rw [← hd, hsuf, hcopied, hcw]
            rw [List.append_assoc]
            rw [List.drop_left]
            rw [hlen3, show (3 : Nat) = (encodeCommand (.set key v)).length from rfl]
            exact List.take_left ..
        · -- a different key: recurse
          have halook' : alookup k rest = some kop := by
            rw [show alookup k ((key, ops) :: rest) = alookup k rest by
              simp [alookup, hkey]] at halook
            exact halook
          have hhead := hoffs (key, ops) (List.mem_cons_self _ _)
          have hres := ih _ _ _ _ _ _ _ heq halook' hgen
            (fun e he => hoffs e (List.mem_cons_of_mem _ he))
            ?_ ?_ ?_ ?_
          · obtain ⟨o', ho1, ho2, ho3⟩ := hres
            refine ⟨o', ?_, ?_, ?_⟩
            · rw [← hidx]
              rw [show alookup k ((key, CommandOps.mk cgen cwOff _) :: idx0) =
                  alookup k idx0 by simp [alookup, hkey]]
              exact ho1
            · rw [← hd]; exact ho2
            · rw [← hd]; exact ho3
          · -- reader invariant is preserved
            intro r2 hr2 hr2off
            by_cases hgg : ops.gen = kop.gen
            · rw [← hgg, alookup_aupdate_self] at hr2
              have hr2' := Option.some.inj hr2
              exfalso
              have hoffeq :
                  (if r.offset ≠ ops.offset then RState.mk ops.offset ops.offset else r).offset =
                    ops.offset := by
                by_cases hro : r.offset ≠ ops.offset
                · rw [if_pos hro]
                · rw [if_neg hro]
                  push_neg at hro
                  exact hro
              have : ops.offset = kop.offset := by
                rw [← hr2off, ← hr2']
                exact hoffeq.symm
              exact hkey (hhead hgg this)
            · rw [alookup_aupdate_of_ne _ rd (fun he => hgg he.symm)] at hr2
              exact hreader r2 hr2 hr2off
          · -- the source file of `k` is untouched
            rw [dirAppend_other _ _ _ _ (fun he => hgen (logName_inj he))]
            exact hrange
          · rw [dirAppend_other _ _ _ _ (fun he => hgen (logName_inj he))]
            exact hslice
          · -- the compaction write offset still tracks the file length
            rw [dirAppend_self, Option.getD_some, List.length_append, hcw]

theorem alookup_mem {α β : Type} [DecidableEq α] {k : α} {v : β} :
    ∀ {l : List (α × β)}, alookup k l = some v → (k, v) ∈ l := by
  intro l
  induction l with
  | nil => intro h; exact Option.noConfusion h
  | cons p t ih =>
    intro h
    obtain ⟨a, b⟩ := p
    by_cases hp : a = k
    · subst hp
      rw [alookup_cons_self] at h
      rw [← Option.some.inj h]
      exact List.mem_cons_self _ _
    · rw [alookup_cons_ne b t hp] at h
      exact List.mem_cons_of_mem _ (ih h)

theorem sliceIsSetOf_length {key : String} {sl : List Token}
    (h : sliceIsSetOf key sl = true) : sl.length = 3 := by
  unfold sliceIsSetOf at h
  split at h
  · rename_i k' v'
    rfl
  · exact Bool.noConfusion h

theorem alookup_foldl_aerase_names {name : String} :
    ∀ (gens : List Nat) (d : Dir), (∀ g' ∈ gens, logName g' ≠ name) →
    alookup name (gens.foldl (fun dd g' => aerase (logName g') dd) d) =
      alookup name d := by
  intro gens
  induction gens with
  | nil => intro d _; rfl
  | cons a t ih =>
    intro d h
    rw [List.foldl_cons, ih (aerase (logName a) d)
        (fun g' hg' => h g' (List.mem_cons_of_mem a hg')),
      alookup_aerase_of_ne d (Ne.symm (h a (List.mem_cons_self a t)))]

theorem get_found (s' : KvStore) (k v : String) (g o len : Nat)
    (hl : s'.load = true)
    (hidx : alookup k s'.index = some ⟨g, o, len⟩)
    (hrd : (alookup g s'.readers).isSome = true)
    (hslice : (((alookup (logName g) s'.dir).getD []).drop o).take len =
      encodeCommand (.set k v)) :
    (KvStore.get s' k).1 = .ok (some v) := by
  unfold KvStore.get
  rw [hl]
  simp only [Bool.not_true, Bool.false_eq_true, if_false]
  rw [hidx]
  dsimp only
  cases hr : alookup g s'.readers with
  | none => rw [hr] at hrd; exact Bool.noConfusion hrd
  | some r =>
    dsimp only
    rw [hslice]
    rfl

theorem compact_preserves_fresh_key (s2 : KvStore) (k v : String) (u : Unit)
    (s3 : KvStore) (o l : Nat)
    (heq : KvStore.compact s2 = (.ok u, s3))
    (hld : s2.load = true)
    (hbound : s2.currentGen + 2 < 2 ^ 64)
    (halook : alookup k s2.index = some ⟨s2.currentGen, o, l⟩)
    (hoffs : ∀ e ∈ s2.index, e.2.gen = s2.currentGen → e.2.offset = o → e.1 = k)
    (hreader : ∀ r, alookup s2.currentGen s2.readers = some r →
      r.offset = o → r.pos = o)
    (hrange : o + l ≤ ((alookup (logName s2.currentGen) s2.dir).getD []).length)
    (hslice : (((alookup (logName s2.currentGen) s2.dir).getD []).drop o).take l =
      encodeCommand (.set k v))
    (hg1 : alookup (logName (s2.currentGen + 1)) s2.dir = none) :
    (KvStore.get s3 k).1 = .ok (some v) := by
  have hne1 : s2.currentGen ≠ s2.currentGen + 1 := by omega
  have hne2 : s2.currentGen ≠ s2.currentGen + 2 := by omega
  have hne12 : s2.currentGen + 1 ≠ s2.currentGen + 2 := by omega
  unfold KvStore.compact at heq
  rw [if_pos hbound] at heq
  dsimp only [newLogFile] at heq
  split at heq
  · rename_i f hloop
    exact absurd (congrArg Prod.fst heq) (by simp)
  · rename_i x idx d3 rd3 off3 hloop
    have hs3 := (Prod.mk.injEq .. ▸ heq).2
    -- the compaction target file starts empty
    have hcgfile :
        (alookup (logName (s2.currentGen + 1))
          (aupdate (logName (s2.currentGen + 1))
            ((alookup (logName (s2.currentGen + 1))
              (aupdate (logName (s2.currentGen + 2))
                ((alookup (logName (s2.currentGen + 2)) s2.dir).getD []) s2.dir)).getD [])
            (aupdate (logName (s2.currentGen + 2))
              ((alookup (logName (s2.currentGen + 2)) s2.dir).getD []) s2.dir))).getD [] =
          [] := by
      rw [alookup_aupdate_self, Option.getD_some,
        alookup_aupdate_of_ne _ _ (fun he => hne12 (logName_inj he)), hg1]
      rfl
    have hcur :
        alookup (logName s2.currentGen)
            (aupdate (logName (s2.currentGen + 1))
              ((alookup (logName (s2.currentGen + 1))
                (aupdate (logName (s2.currentGen + 2))
                  ((alookup (logName (s2.currentGen + 2)) s2.dir).getD []) s2.dir)).getD [])
              (aupdate (logName (s2.currentGen + 2))
                ((alookup (logName (s2.currentGen + 2)) s2.dir).getD []) s2.dir)) =
          alookup (logName s2.currentGen) s2.dir := by
      rw [alookup_aupdate_of_ne _ _ (fun he => hne1 (logName_inj he)),
        alookup_aupdate_of_ne _ _ (fun he => hne2 (logName_inj he))]
    obtain ⟨o', ho1, ho2, ho3⟩ :=
      compactLoop_key (s2.currentGen + 1) k ⟨s2.currentGen, o, l⟩ v
        s2.index _ _ 0 idx d3 rd3 off3 hloop halook hne1 hoffs
        (by
          intro r hr hro
          rw [alookup_aupdate_of_ne _ _ hne1,
            alookup_aupdate_of_ne _ _ hne2] at hr
          exact hreader r hr hro)
        (by rw [hcur]; exact hrange)
        (by rw [hcur]; exact hslice)
        (by rw [hcgfile]; rfl)
    rw [← hs3]
    refine get_found _ k v (s2.currentGen + 1) o' l hld ho1 ?_ ?_
    · dsimp only
      rw [alookup_foldl_aerase]
      · exact compactLoop_readers_isSome _ _ _ _ _ _ _ _ _ _ hloop
          (by rw [alookup_aupdate_self]; rfl)
      · intro g' hg'
        have := List.of_mem_filter hg'
        simp only [decide_eq_true_eq] at this
        omega
    · dsimp only
      rw [alookup_foldl_aerase_names]
      · exact ho3
      · intro g' hg' he
        have := List.of_mem_filter hg'
        simp only [decide_eq_true_eq] at this
        have := logName_inj he
        omega

/-- Claim C1: on a well-formed store, after a `set(k, v)` that returns
`Ok`, an immediately following `get(k)` returns `Ok(Some(v))` — also
when the `set` triggers compaction: for the entry just written the
conditional seek of the compaction loop always lands on the true
record position, so the fresh record survives. -/
theorem c1_set_then_get (s : KvStore) (k v : String) (wOk : Bool) (junk : List Token)
    (hwf : WF s) (hok : (KvStore.set s k v wOk junk).1 = .ok ()) :
    (KvStore.get (KvStore.set s k v wOk junk).2 k).1 = .ok (some v) := by
  obtain ⟨hload, hnd, hent, hrdr, hcurrd, hcurf, hwo, hg1, hg2, hbound⟩ := hwf
  have hnl : ¬((!s.load) = true) := by rw [hload]; decide
  unfold KvStore.set at hok ⊢
  rw [if_neg hnl] at hok ⊢
  by_cases hw : (!wOk) = true
  · rw [if_pos hw] at hok
    exact Except.noConfusion hok
  rw [if_neg hw] at hok ⊢
  dsimp only at hok ⊢
  have hlen : s.writerOffset + (encodeCommand (Command.set k v)).length -
      s.writerOffset = 3 := by
    simp [encodeCommand]
  rw [hlen] at hok ⊢
  have hoffs : ∀ e ∈ aupdate k (CommandOps.mk s.currentGen s.writerOffset 3) s.index,
      e.2.gen = s.currentGen → e.2.offset = s.writerOffset → e.1 = k := by
    intro e he hg ho
    rcases mem_aupdate he with he' | he'
    · rw [he']
    · exfalso
      obtain ⟨-, -, hrange, hsliceOK⟩ := hent e he'
      have hsl := sliceIsSetOf_length hsliceOK
      rw [List.length_take, List.length_drop] at hsl
      rw [hg] at hrange hsl
      rw [← hwo] at hrange hsl
      omega
  have hreader : ∀ r, alookup s.currentGen s.readers = some r →
      r.offset = s.writerOffset → r.pos = s.writerOffset := by
    intro r hr hro
    have hwr := hrdr (s.currentGen, r) (alookup_mem hr)
    dsimp only at hwr
    obtain ⟨-, hpos, hoff⟩ := hwr
    rw [← hwo] at hpos hoff
    rcases hoff with h0 | hlt
    · omega
    · omega
  have hfile2 : (alookup (logName s.currentGen)
      (dirAppend s.dir (logName s.currentGen) (encodeCommand (Command.set k v)))).getD []
        = fileAt s s.currentGen ++ encodeCommand (Command.set k v) := by
    rw [dirAppend_self, Option.getD_some]
    rfl
  have hrange2 : s.writerOffset + 3 ≤ ((alookup (logName s.currentGen)
      (dirAppend s.dir (logName s.currentGen) (encodeCommand (Command.set k v)))).getD
        []).length := by
    rw [hfile2, List.length_append, ← hwo]
    simp [encodeCommand]
  have hslice2 : (((alookup (logName s.currentGen)
      (dirAppend s.dir (logName s.currentGen)
        (encodeCommand (Command.set k v)))).getD []).drop s.writerOffset).take 3 =
      encodeCommand (Command.set k v) := by
    rw [hfile2, hwo, List.drop_left]
    rfl
  have hg1' : alookup (logName (s.currentGen + 1))
      (dirAppend s.dir (logName s.currentGen) (encodeCommand (Command.set k v))) =
        none := by
    rw [dirAppend_other _ _ _ _ (fun he => by
      have := logName_inj he
      omega)]
    exact hg1
  cases hidx0 : alookup k s.index with
  | some old =>
    rw [hidx0] at hok
    dsimp only at hok ⊢
    split at hok
    · rename_i hthr
      rw [if_pos hthr]
      split at hok
      · rename_i s3 heqc
        dsimp only
        exact compact_preserves_fresh_key _ k v _ s3 s.writerOffset 3 heqc hload hbound
          (alookup_aupdate_self k _ s.index) hoffs hreader hrange2 hslice2 hg1'
      · exact Except.noConfusion hok
    · rename_i hthr
      rw [if_neg hthr]
      exact get_found _ k v s.currentGen s.writerOffset 3 hload
        (alookup_aupdate_self k _ s.index) hcurrd hslice2
  | none =>
    rw [hidx0] at hok
    dsimp only at hok ⊢
    split at hok
    · rename_i hthr
      rw [if_pos hthr]
      split at hok
      · rename_i s3 heqc
        dsimp only
        exact compact_preserves_fresh_key _ k v _ s3 s.writerOffset 3 heqc hload hbound
          (alookup_aupdate_self k _ s.index) hoffs hreader hrange2 hslice2 hg1'
      · exact Except.noConfusion hok
    · rename_i hthr
      rw [if_neg hthr]
      exact get_found _ k v s.currentGen s.writerOffset 3 hload
        (alookup_aupdate_self k _ s.index) hcurrd hslice2

/-- Claim C1 witness: a concrete set-then-get on the freshly opened
store. -/
theorem c1_witness :
    (KvStore.get (KvStore.set store1 "a" "x" true []).2 "a").1 = .ok (some "x") :=
  c1_set_then_get store1 "a" "x" true [] (by decide) (by decide)

theorem aupdate_of_none {α β : Type} [DecidableEq α] {n : α} (v : β) :
    ∀ {l : List (α × β)}, alookup n l = none → aupdate n v l = l ++ [(n, v)] := by
  intro l
  induction l with
  | nil => intro _; rfl
  | cons p t ih =>
    intro h
    obtain ⟨a, b⟩ := p
    by_cases hp : a = n
    · rw [hp, alookup_cons_self] at h
      exact Option.noConfusion h
    · rw [alookup_cons_ne b t hp] at h
      simp only [aupdate, if_neg hp, List.cons_append]
      rw [ih h]

theorem aupdate_append_replace {α β : Type} [DecidableEq α] {n : α} (v w : β)
    (t : List (α × β)) : ∀ {dA : List (α × β)}, (∀ e ∈ dA, e.1 ≠ n) →
    aupdate n v (dA ++ (n, w) :: t) = dA ++ (n, v) :: t := by
  intro dA
  induction dA with
  | nil => intro _; simp [aupdate]
  | cons p dtl ih =>
    intro h
    have hp : p.1 ≠ n := h p (List.mem_cons_self p dtl)
    obtain ⟨a, b⟩ := p
    simp only at hp
    simp only [List.cons_append, aupdate, if_neg hp, List.append_eq]
    rw [ih (fun e he => h e (List.mem_cons_of_mem _ he))]

theorem alookup_append_of_free {α β : Type} [DecidableEq α] {n : α}
    (suf : List (α × β)) (hs : ∀ e ∈ suf, e.1 ≠ n) :
    ∀ (dA : List (α × β)), alookup n (dA ++ suf) = alookup n dA := by
  intro dA
  induction dA with
  | nil =>
    simp only [List.nil_append, alookup]
    exact alookup_eq_none_of_not_mem_akeys (fun hm => by
      obtain ⟨e, he, hee⟩ := List.mem_map.mp hm
      exact hs e he hee)
  | cons p t ih =>
    obtain ⟨a, b⟩ := p
    by_cases hp : a = n
    · rw [hp, List.cons_append, alookup_cons_self, alookup_cons_self]
    · rw [List.cons_append, alookup_cons_ne _ _ hp, alookup_cons_ne _ _ hp, ih]

theorem alookup_append_found {α β : Type} [DecidableEq α] {n : α} (v : β)
    (t : List (α × β)) : ∀ {dA : List (α × β)}, (∀ e ∈ dA, e.1 ≠ n) →
    alookup n (dA ++ (n, v) :: t) = some v := by
  intro dA
  induction dA with
  | nil => simp [alookup]
  | cons p dtl ih =>
    intro h
    have hp : p.1 ≠ n := h p (List.mem_cons_self p dtl)
    obtain ⟨a, b⟩ := p
    simp only at hp
    rw [List.cons_append, alookup_cons_ne _ _ hp]
    exact ih (fun e he => h e (List.mem_cons_of_mem _ he))

theorem aerase_append_of_free {α β : Type} [DecidableEq α] {n : α}
    (suf : List (α × β)) (hs : ∀ e ∈ suf, e.1 ≠ n) :
    ∀ (dA : List (α × β)), aerase n (dA ++ suf) = aerase n dA ++ suf := by
  intro dA
  induction dA with
  | nil =>
    simp only [List.nil_append, aerase]
    induction suf with
    | nil => rfl
    | cons q qt ihq =>
      obtain ⟨a, b⟩ := q
      have ha : a ≠ n := hs (a, b) (List.mem_cons_self _ _)
      simp only [aerase, if_neg ha]
      rw [ihq (fun e he => hs e (List.mem_cons_of_mem _ he))]
  | cons p t ih =>
    obtain ⟨a, b⟩ := p
    by_cases hp : a = n
    · simp [aerase, hp]
    · simp only [List.cons_append, aerase, if_neg hp, List.append_eq]
      rw [ih]

theorem aerase_append_found {α β : Type} [DecidableEq α] {n : α} (v : β)
    (t : List (α × β)) : ∀ {dA : List (α × β)}, (∀ e ∈ dA, e.1 ≠ n) →
    aerase n (dA ++ (n, v) :: t) = dA ++ t := by
  intro dA
  induction dA with
  | nil => simp [aerase]
  | cons p dtl ih =>
    intro h
    have hp : p.1 ≠ n := h p (List.mem_cons_self p dtl)
    obtain ⟨a, b⟩ := p
    simp only at hp
    simp only [List.cons_append, aerase, if_neg hp, List.append_eq]
    rw [ih (fun e he => h e (List.mem_cons_of_mem _ he))]

theorem mem_aerase {α β : Type} [DecidableEq α] {e : α × β} {n : α} :
    ∀ {l : List (α × β)}, e ∈ aerase n l → e ∈ l := by
  intro l
  induction l with
  | nil => intro h; exact absurd h (List.not_mem_nil e)
  | cons p t ih =>
    intro h
    obtain ⟨a, b⟩ := p
    by_cases hp : a = n
    · simp only [aerase, if_pos hp] at h
      exact List.mem_cons_of_mem _ h
    · simp only [aerase, if_neg hp, List.mem_cons] at h
      rcases h with h | h
      · rw [h]; exact List.mem_cons_self _ _
      · exact List.mem_cons_of_mem _ (ih h)

theorem aupdate_aupdate_same {α β : Type} [DecidableEq α] (n : α) (v w : β) :
    ∀ (l : List (α × β)), aupdate n v (aupdate n w l) = aupdate n v l := by
  intro l
  induction l with
  | nil => simp [aupdate]
  | cons p t ih =>
    obtain ⟨a, b⟩ := p
    by_cases hp : a = n
    · simp [aupdate, hp]
    · simp only [aupdate, if_neg hp]
      rw [ih]

theorem loadCmds_setStream_prefix (g : Nat) : ∀ {P : List Token}, SetStream P →
    ∀ (off : Nat) (idx : Index) (unc : Nat), ∃ idx2 unc2,
      ∀ (rest : List Token), loadCmds g (P ++ rest) off idx unc =
        loadCmds g rest (off + P.length) idx2 unc2 := by
  intro P h
  induction h with
  | nil =>
    intro off idx unc
    exact ⟨idx, unc, fun rest => by rw [List.nil_append, List.length_nil, Nat.add_zero]⟩
  | cons j w l hl ih =>
    intro off idx unc
    obtain ⟨idx2, unc2, hrec⟩ := ih (off + 3) (aupdate j ⟨g, off, 3⟩ idx)
      (match alookup j idx with | some ops => unc + ops.len | none => unc)
    refine ⟨idx2, unc2, fun rest => ?_⟩
    have h1 : loadCmds g ((Token.setTag :: Token.str j :: Token.str w :: l) ++ rest)
        off idx unc = loadCmds g (l ++ rest) (off + 3) (aupdate j ⟨g, off, 3⟩ idx)
        (match alookup j idx with | some ops => unc + ops.len | none => unc) := rfl
    rw [h1, hrec rest]
    have h2 : off + 3 + l.length =
        off + (Token.setTag :: Token.str j :: Token.str w :: l).length := by
      simp only [List.length_cons]
      omega
    rw [h2]

theorem loadCmds_setStreamNK (g : Nat) (k : String) : ∀ {Q : List Token},
    SetStreamNK k Q → ∀ (off : Nat) (idx : Index) (unc : Nat), ∃ idx2 unc2,
      loadCmds g Q off idx unc = .ok (idx2, unc2) ∧
      alookup k idx2 = alookup k idx := by
  intro Q h
  induction h with
  | nil => intro off idx unc; exact ⟨idx, unc, rfl, rfl⟩
  | cons j w l hjk hl ih =>
    intro off idx unc
    obtain ⟨idx2, unc2, heq, hlook⟩ := ih (off + 3) (aupdate j ⟨g, off, 3⟩ idx)
      (match alookup j idx with | some ops => unc + ops.len | none => unc)
    refine ⟨idx2, unc2, heq, ?_⟩
    rw [hlook, alookup_aupdate_of_ne _ idx (Ne.symm hjk)]

theorem loadCmds_content (g : Nat) (k v : String) {P Q : List Token}
    (hP : SetStream P) (hQ : SetStreamNK k Q) (idx : Index) (unc : Nat) :
    ∃ idx2 unc2,
      loadCmds g (P ++ (Token.setTag :: Token.str k :: Token.str v :: Q)) 0 idx unc =
        .ok (idx2, unc2) ∧ alookup k idx2 = some ⟨g, P.length, 3⟩ := by
  obtain ⟨idxP, uncP, hPr⟩ := loadCmds_setStream_prefix g hP 0 idx unc
  obtain ⟨idx2, unc2, hQr, hQl⟩ := loadCmds_setStreamNK g k hQ (0 + P.length + 3)
    (aupdate k ⟨g, 0 + P.length, 3⟩ idxP)
    (match alookup k idxP with | some ops => uncP + ops.len | none => uncP)
  refine ⟨idx2, unc2, ?_, ?_⟩
  · rw [hPr (Token.setTag :: Token.str k :: Token.str v :: Q)]
    exact hQr
  · rw [hQl, alookup_aupdate_self, Nat.zero_add]

theorem loadCmds_entries (g : Nat) (F : List Token) :
    ∀ (l : List Token) (off : Nat) (idx : Index) (unc : Nat) (idx' : Index)
      (unc' : Nat), l = F.drop off → loadCmds g l off idx unc = .ok (idx', unc') →
      ∀ e ∈ idx', e ∈ idx ∨ (e.2.gen = g ∧ e.2.len = 3 ∧
        e.2.offset + 3 ≤ F.length ∧
        ∃ w, (F.drop e.2.offset).take 3 = encodeCommand (.set e.1 w))
  | [], off, idx, unc, idx', unc' => by
    intro h1 h2 e he
    simp only [loadCmds, Except.ok.injEq, Prod.mk.injEq] at h2
    rw [← h2.1] at he
    exact Or.inl he
  | .setTag :: .str j :: .str w :: rest, off, idx, unc, idx', unc' => by
    intro h1 h2 e he
    have h2' : loadCmds g rest (off + 3) (aupdate j ⟨g, off, 3⟩ idx)
        (match alookup j idx with | some ops => unc + ops.len | none => unc) =
        .ok (idx', unc') := h2
    have hr : rest = F.drop (off + 3) := by
      have : (F.drop off).drop 3 = rest := by rw [← h1]; rfl
      rw [← this, List.drop_drop, Nat.add_comm]
    have hlen : off + 3 ≤ F.length := by
      have hl1 := congrArg List.length h1
      rw [List.length_drop] at hl1
      simp only [List.length_cons] at hl1
      omega
    have hslice : (F.drop off).take 3 =
        encodeCommand (.set j w) := by
      rw [← h1]
      rfl
    rcases loadCmds_entries g F rest (off + 3) _ _ idx' unc' hr h2' e he with hin | hnew
    · rcases mem_aupdate hin with he' | he'
      · right
        rw [he']
        exact ⟨rfl, rfl, hlen, w, hslice⟩
      · exact Or.inl he'
    · exact Or.inr hnew
  | .removeTag :: .str j :: rest, off, idx, unc, idx', unc' => by
    intro h1 h2 e he
    have h2' : loadCmds g rest (off + 2) (aerase j idx)
        ((match alookup j idx with | some ops => unc + ops.len | none => unc) +
          (off + 2 - off)) = .ok (idx', unc') := h2
    have hr : rest = F.drop (off + 2) := by
      have : (F.drop off).drop 2 = rest := by rw [← h1]; rfl
      rw [← this, List.drop_drop, Nat.add_comm]
    rcases loadCmds_entries g F rest (off + 2) _ _ idx' unc' hr h2' e he with hin | hnew
    · exact Or.inl (mem_aerase hin)
    · exact Or.inr hnew
  | [.setTag], off, idx, unc, idx', unc' => by
    intro _ h2
    exact Except.noConfusion h2
  | [.setTag, .str j], off, idx, unc, idx', unc' => by
    intro _ h2
    exact Except.noConfusion h2
  | .setTag :: .str j :: .setTag :: rest, off, idx, unc, idx', unc' => by
    intro _ h2
    exact Except.noConfusion h2
  | .setTag :: .str j :: .removeTag :: rest, off, idx, unc, idx', unc' => by
    intro _ h2
    exact Except.noConfusion h2
  | .setTag :: .setTag :: rest, off, idx, unc, idx', unc' => by
    intro _ h2
    exact Except.noConfusion h2
  | .setTag :: .removeTag :: rest, off, idx, unc, idx', unc' => by
    intro _ h2
    exact Except.noConfusion h2
  | [.removeTag], off, idx, unc, idx', unc' => by
    intro _ h2
    exact Except.noConfusion h2
  | .removeTag :: .setTag :: rest, off, idx, unc, idx', unc' => by
    intro _ h2
    exact Except.noConfusion h2
  | .removeTag :: .removeTag :: rest, off, idx, unc, idx', unc' => by
    intro _ h2
    exact Except.noConfusion h2
  | .str j :: rest, off, idx, unc, idx', unc' => by
    intro _ h2
    exact Except.noConfusion h2

theorem loadCmds_nodup (g : Nat) :
    ∀ (l : List Token) (off : Nat) (idx : Index) (unc : Nat) (idx' : Index)
      (unc' : Nat), loadCmds g l off idx unc = .ok (idx', unc') →
      NoDupKeys idx → NoDupKeys idx'
  | [], off, idx, unc, idx', unc' => by
    intro h hn
    simp only [loadCmds, Except.ok.injEq, Prod.mk.injEq] at h
    rw [← h.1]
    exact hn
  | .setTag :: .str j :: .str w :: rest, off, idx, unc, idx', unc' => by
    intro h hn
    have h' : loadCmds g rest (off + 3) (aupdate j ⟨g, off, 3⟩ idx)
        (match alookup j idx with | some ops => unc + ops.len | none => unc) =
        .ok (idx', unc') := h
    exact loadCmds_nodup g rest (off + 3) _ _ idx' unc' h' (noDupKeys_aupdate j _ hn)
  | .removeTag :: .str j :: rest, off, idx, unc, idx', unc' => by
    intro h hn
    have h' : loadCmds g rest (off + 2) (aerase j idx)
        ((match alookup j idx with | some ops => unc + ops.len | none => unc) +
          (off + 2 - off)) = .ok (idx', unc') := h
    exact loadCmds_nodup g rest (off + 2) _ _ idx' unc' h' (noDupKeys_aerase j hn)
  | [.setTag], off, idx, unc, idx', unc' => by
    intro h _
    exact Except.noConfusion h
  | [.setTag, .str j], off, idx, unc, idx', unc' => by
    intro h _
    exact Except.noConfusion h
  | .setTag :: .str j :: .setTag :: rest, off, idx, unc, idx', unc' => by
    intro h _
    exact Except.noConfusion h
  | .setTag :: .str j :: .removeTag :: rest, off, idx, unc, idx', unc' => by
    intro h _
    exact Except.noConfusion h
  | .setTag :: .setTag :: rest, off, idx, unc, idx', unc' => by
    intro h _
    exact Except.noConfusion h
  | .setTag :: .removeTag :: rest, off, idx, unc, idx', unc' => by
    intro h _
    exact Except.noConfusion h
  | [.removeTag], off, idx, unc, idx', unc' => by
    intro h _
    exact Except.noConfusion h
  | .removeTag :: .setTag :: rest, off, idx, unc, idx', unc' => by
    intro h _
    exact Except.noConfusion h
  | .removeTag :: .removeTag :: rest, off, idx, unc, idx', unc' => by
    intro h _
    exact Except.noConfusion h
  | .str j :: rest, off, idx, unc, idx', unc' => by
    intro h _
    exact Except.noConfusion h

theorem replayGens_entries (d : Dir) :
    ∀ (l : List Nat) (rd : List (Nat × RState)) (idx : Index) (unc : Nat)
      (rd' : List (Nat × RState)) (idx' : Index) (unc' : Nat),
    replayGens d l rd idx unc = .ok (rd', idx', unc') →
    ∀ e ∈ idx', e ∈ idx ∨ ∃ g ∈ l, e.2.gen = g ∧ e.2.len = 3 ∧
      e.2.offset + 3 ≤ ((alookup (logName g) d).getD []).length ∧
      ∃ w, ((((alookup (logName g) d).getD []).drop e.2.offset).take 3 =
        encodeCommand (.set e.1 w)) := by
  intro l
  induction l with
  | nil =>
    intro rd idx unc rd' idx' unc' h e he
    simp only [replayGens, Except.ok.injEq, Prod.mk.injEq] at h
    rw [← h.2.1] at he
    exact Or.inl he
  | cons g rest ih =>
    intro rd idx unc rd' idx' unc' h e he
    unfold replayGens at h
    cases hf : alookup (logName g) d with
    | none =>
      rw [hf] at h
      exact Except.noConfusion h
    | some f =>
      rw [hf] at h
      simp only at h
      cases hl : loadCmds g f 0 idx unc with
      | error e2 =>
        rw [hl] at h
        exact Except.noConfusion h
      | ok p =>
        obtain ⟨idx1, unc1⟩ := p
        rw [hl] at h
        rcases ih _ _ _ _ _ _ h e he with hin | ⟨g2, hg2, hprops⟩
        · rcases loadCmds_entries g f f 0 idx unc idx1 unc1
            (by rw [List.drop_zero]) hl e hin with hidx | hnew
          · exact Or.inl hidx
          · right
            refine ⟨g, List.mem_cons_self g rest, ?_⟩
            rw [hf]
            exact hnew
        · exact Or.inr ⟨g2, List.mem_cons_of_mem _ hg2, hprops⟩

theorem replayGens_nodup (d : Dir) :
    ∀ (l : List Nat) (rd : List (Nat × RState)) (idx : Index) (unc : Nat)
      (rd' : List (Nat × RState)) (idx' : Index) (unc' : Nat),
    replayGens d l rd idx unc = .ok (rd', idx', unc') →
    NoDupKeys idx → NoDupKeys idx' := by
  intro l
  induction l with
  | nil =>
    intro rd idx unc rd' idx' unc' h hn
    simp only [replayGens, Except.ok.injEq, Prod.mk.injEq] at h
    rw [← h.2.1]
    exact hn
  | cons g rest ih =>
    intro rd idx unc rd' idx' unc' h hn
    unfold replayGens at h
    cases hf : alookup (logName g) d with
    | none =>
      rw [hf] at h
      exact Except.noConfusion h
    | some f =>
      rw [hf] at h
      simp only at h
      cases hl : loadCmds g f 0 idx unc with
      | error e2 =>
        rw [hl] at h
        exact Except.noConfusion h
      | ok p =>
        obtain ⟨idx1, unc1⟩ := p
        rw [hl] at h
        exact ih _ _ _ _ _ _ h (loadCmds_nodup g f 0 idx unc idx1 unc1 hl hn)

theorem replayGens_readers (d : Dir) :
    ∀ (l : List Nat) (rd : List (Nat × RState)) (idx : Index) (unc : Nat)
      (rd' : List (Nat × RState)) (idx' : Index) (unc' : Nat),
    replayGens d l rd idx unc = .ok (rd', idx', unc') →
    ∀ p ∈ rd', p ∈ rd ∨ (p.1 ∈ l ∧
      p.2 = RState.mk 0 ((alookup (logName p.1) d).getD []).length) := by
  intro l
  induction l with
  | nil =>
    intro rd idx unc rd' idx' unc' h p hp
    simp only [replayGens, Except.ok.injEq, Prod.mk.injEq] at h
    rw [← h.1] at hp
    exact Or.inl hp
  | cons g rest ih =>
    intro rd idx unc rd' idx' unc' h p hp
    unfold replayGens at h
    cases hf : alookup (logName g) d with
    | none =>
      rw [hf] at h
      exact Except.noConfusion h
    | some f =>
      rw [hf] at h
      simp only at h
      cases hl : loadCmds g f 0 idx unc with
      | error e2 =>
        rw [hl] at h
        exact Except.noConfusion h
      | ok q =>
        obtain ⟨idx1, unc1⟩ := q
        rw [hl] at h
        rcases ih _ _ _ _ _ _ h p hp with hin | ⟨hmem, hval⟩
        · rcases mem_aupdate hin with he | he
          · right
            rw [he]
            refine ⟨List.mem_cons_self g rest, ?_⟩
            rw [hf]
            rfl
          · exact Or.inl he
        · exact Or.inr ⟨List.mem_cons_of_mem _ hmem, hval⟩

theorem mem_akeys_of_alookup {α β : Type} [DecidableEq α] {k : α} {v : β}
    {l : List (α × β)} (h : alookup k l = some v) : k ∈ akeys l := by
  have := alookup_mem h
  exact List.mem_map.mpr ⟨(k, v), this, rfl⟩

theorem mem_akeys_aupdate {α β : Type} [DecidableEq α] {a k : α} (v : β)
    (l : List (α × β)) : a ∈ akeys (aupdate k v l) ↔ a ∈ akeys l ∨ a = k := by
  by_cases hm : k ∈ akeys l
  · rw [akeys_aupdate_of_mem v hm]
    constructor
    · exact Or.inl
    · rintro (h | h)
      · exact h
      · rw [h]; exact hm
  · rw [akeys_aupdate_of_not_mem v hm, List.mem_append, List.mem_singleton]

theorem replayGens_akeys_mem (d : Dir) :
    ∀ (l : List Nat) (rd : List (Nat × RState)) (idx : Index) (unc : Nat)
      (rd' : List (Nat × RState)) (idx' : Index) (unc' : Nat),
    replayGens d l rd idx unc = .ok (rd', idx', unc') →
    ∀ g, g ∈ akeys rd' ↔ (g ∈ akeys rd ∨ g ∈ l) := by
  intro l
  induction l with
  | nil =>
    intro rd idx unc rd' idx' unc' h g
    simp only [replayGens, Except.ok.injEq, Prod.mk.injEq] at h
    rw [← h.1]
    simp
  | cons g0 rest ih =>
    intro rd idx unc rd' idx' unc' h g
    unfold replayGens at h
    cases hf : alookup (logName g0) d with
    | none =>
      rw [hf] at h
      exact Except.noConfusion h
    | some f =>
      rw [hf] at h
      simp only at h
      cases hl : loadCmds g0 f 0 idx unc with
      | error e2 =>
        rw [hl] at h
        exact Except.noConfusion h
      | ok q =>
        obtain ⟨idx1, unc1⟩ := q
        rw [hl] at h
        rw [ih _ _ _ _ _ _ h g, mem_akeys_aupdate]
        simp only [List.mem_cons]
        tauto

theorem compactLoop_readers_akeys (cgen : Nat) :
    ∀ (entries : Index) (d : Dir) (rd : List (Nat × RState)) (off : Nat)
      (idx : Index) (d' : Dir) (rd' : List (Nat × RState)) (off' : Nat),
    KvStore.compactLoop cgen entries d rd off = .ok (idx, d', rd', off') →
    akeys rd' = akeys rd := by
  intro entries
  induction entries with
  | nil =>
    intro d rd off idx d' rd' off' h
    simp only [KvStore.compactLoop, Except.ok.injEq, Prod.mk.injEq] at h
    rw [← h.2.2.1]
  | cons p rest ih =>
    intro d rd off idx d' rd' off' h
    obtain ⟨key, ops⟩ := p
    unfold KvStore.compactLoop at h
    cases hl : alookup ops.gen rd with
    | none =>
      rw [hl] at h
      exact Except.noConfusion h
    | some r =>
      rw [hl] at h
      simp only at h
      cases hrec : KvStore.compactLoop cgen rest
          (dirAppend d (logName cgen)
            ((((alookup (logName ops.gen) d).getD []).drop
              (if r.offset ≠ ops.offset then RState.mk ops.offset ops.offset else r).pos).take ops.len))
          (aupdate ops.gen
            ⟨(if r.offset ≠ ops.offset then RState.mk ops.offset ops.offset else r).offset,
             (if r.offset ≠ ops.offset then RState.mk ops.offset ops.offset else r).pos +
               ((((alookup (logName ops.gen) d).getD []).drop
                 (if r.offset ≠ ops.offset then RState.mk ops.offset ops.offset else r).pos).take ops.len).length⟩
            rd)
          (off +
            ((((alookup (logName ops.gen) d).getD []).drop
              (if r.offset ≠ ops.offset then RState.mk ops.offset ops.offset else r).pos).take ops.len).length) with
      | error f =>
        rw [hrec] at h
        exact Except.noConfusion h
      | ok q =>
        obtain ⟨idx2, d2, rd2, off2⟩ := q
        rw [hrec] at h
        simp only [Except.ok.injEq, Prod.mk.injEq] at h
        obtain ⟨-, -, hrd, -⟩ := h
        rw [← hrd, ih _ _ _ _ _ _ _ hrec,
          akeys_aupdate_of_mem _ (mem_akeys_of_alookup hl)]

theorem le_foldr_max {l : List Nat} {a : Nat} (h : a ∈ l) : a ≤ l.foldr max 0 := by
  induction l with
  | nil => exact absurd h (List.not_mem_nil a)
  | cons b t ih =>
    rcases List.mem_cons.mp h with hb | ht
    · rw [hb]
      exact Nat.le_max_left _ _
    · exact le_trans (ih ht) (Nat.le_max_right _ _)

theorem mem_genList_le {d : Dir} {g : Nat} (h : g ∈ genList d) :
    g ≤ (genList d).getLast?.getD 0 := by
  rw [getLast_sorted_eq_foldr_max (genList_sorted d)]
  exact le_foldr_max h

theorem mem_akeys_aerase {α β : Type} [DecidableEq α] {a k : α}
    {l : List (α × β)} (h : a ∈ akeys (aerase k l)) : a ∈ akeys l :=
  (akeys_aerase_sublist k l).mem h

theorem not_mem_akeys_aerase_self {α β : Type} [DecidableEq α] {k : α} :
    ∀ {l : List (α × β)}, NoDupKeys l → k ∉ akeys (aerase k l) := by
  intro l
  induction l with
  | nil => intro _ h; exact absurd h (List.not_mem_nil k)
  | cons p t ih =>
    obtain ⟨a, b⟩ := p
    intro hn
    simp only [NoDupKeys, akeys, List.map_cons, List.nodup_cons] at hn
    by_cases hp : a = k
    · rw [show aerase k ((a, b) :: t) = t from by simp [aerase, hp]]
      rw [hp] at hn
      intro h
      exact hn.1 h
    · rw [show aerase k ((a, b) :: t) = (a, b) :: aerase k t from by simp [aerase, hp]]
      intro h
      simp only [akeys, List.map_cons, List.mem_cons] at h
      rcases h with hh | hh
      · exact hp hh.symm
      · exact ih hn.2 hh

theorem mem_akeys_foldl_aerase {n : String} :
    ∀ (L : List Nat) (d : Dir),
    n ∈ akeys (L.foldl (fun dd g => aerase (logName g) dd) d) → n ∈ akeys d := by
  intro L
  induction L with
  | nil => intro d h; exact h
  | cons g0 rest ih =>
    intro d h
    exact mem_akeys_aerase (ih (aerase (logName g0) d) h)

theorem not_mem_akeys_foldl_aerase {n : String} :
    ∀ (L : List Nat) (d : Dir), NoDupKeys d → n ∈ L.map logName →
    n ∉ akeys (L.foldl (fun dd g => aerase (logName g) dd) d) := by
  intro L
  induction L with
  | nil => intro d _ h; exact absurd h (List.not_mem_nil n)
  | cons g0 rest ih =>
    intro d hn hm
    rcases List.mem_cons.mp hm with hh | hh
    · intro hcon
      have h1 : n ∈ akeys (aerase (logName g0) d) :=
        mem_akeys_foldl_aerase rest _ hcon
      rw [hh] at h1
      exact not_mem_akeys_aerase_self hn h1
    · exact ih (aerase (logName g0) d) (noDupKeys_aerase _ hn) hh

theorem foldl_aerase_names_append (T : Dir) :
    ∀ (L : List Nat) (dA : Dir), (∀ g ∈ L, ∀ e ∈ T, e.1 ≠ logName g) →
    L.foldl (fun dd g => aerase (logName g) dd) (dA ++ T) =
      L.foldl (fun dd g => aerase (logName g) dd) dA ++ T := by
  intro L
  induction L with
  | nil => intro dA _; rfl
  | cons g0 rest ih =>
    intro dA hT
    have h1 : aerase (logName g0) (dA ++ T) = aerase (logName g0) dA ++ T :=
      aerase_append_of_free T (hT g0 (List.mem_cons_self g0 rest)) dA
    simp only [List.foldl_cons]
    rw [h1]
    exact ih _ (fun g hg => hT g (List.mem_cons_of_mem _ hg))

theorem insertionSort_append_single {L : List Nat} {a : Nat}
    (h : ∀ g ∈ L, g ≤ a) :
    (L ++ [a]).insertionSort (· ≤ ·) = L.insertionSort (· ≤ ·) ++ [a] := by
  have hperm : List.Perm ((L ++ [a]).insertionSort (· ≤ ·))
      (L.insertionSort (· ≤ ·) ++ [a]) :=
    (List.perm_insertionSort _ _).trans
      (((List.perm_insertionSort (fun x y => x ≤ y) L).symm).append_right [a])
  have hs1 : List.Sorted (· ≤ ·) ((L ++ [a]).insertionSort (· ≤ ·)) :=
    List.sorted_insertionSort _ _
  have hs2 : List.Sorted (· ≤ ·) (L.insertionSort (· ≤ ·) ++ [a]) :=
    List.pairwise_append.mpr ⟨List.sorted_insertionSort _ _,
      List.pairwise_singleton _ _,
      fun x hx b hb => by
        rw [List.mem_singleton] at hb
        rw [hb]
        exact h x ((List.mem_insertionSort _).mp hx)⟩
  exact List.eq_of_perm_of_sorted hperm hs1 hs2

theorem genList_append_single {d : Dir} {n : String} {x : List Token} {a : Nat}
    (hp : parseGenName n = some a) (hle : ∀ g ∈ genList d, g ≤ a) :
    genList (d ++ [(n, x)]) = genList d ++ [a] := by
  unfold genList
  rw [List.map_append, List.filterMap_append]
  have h1 : List.filterMap parseGenName (List.map Prod.fst [(n, x)]) = [a] := by
    simp [hp]
  rw [h1]
  apply insertionSort_append_single
  intro g hg
  exact hle g ((List.mem_insertionSort _).mpr hg)

theorem replayGens_cons_some (d : Dir) (g : Nat) (rest : List Nat)
    (rd : List (Nat × RState)) (idx : Index) (unc : Nat) (f : List Token)
    (hf : alookup (logName g) d = some f) :
    replayGens d (g :: rest) rd idx unc =
      match loadCmds g f 0 idx unc with
      | .error e => .error (.err e)
      | .ok (idx', unc') => replayGens d rest (aupdate g ⟨0, f.length⟩ rd) idx' unc' := by
  conv_lhs => rw [replayGens]
  rw [hf]

theorem replayGens_congr (d2 d : Dir) :
    ∀ (l : List Nat), (∀ g ∈ l, alookup (logName g) d2 = alookup (logName g) d) →
    ∀ (rd : List (Nat × RState)) (idx : Index) (unc : Nat),
    replayGens d2 l rd idx unc = replayGens d l rd idx unc := by
  intro l
  induction l with
  | nil => intro _ rd idx unc; rfl
  | cons g rest ih =>
    intro h rd idx unc
    cases hfd : alookup (logName g) d with
    | none =>
      have hf2 : alookup (logName g) d2 = none := by
        rw [h g (List.mem_cons_self g rest), hfd]
      unfold replayGens
      rw [hfd, hf2]
    | some f =>
      have hf2 : alookup (logName g) d2 = some f := by
        rw [h g (List.mem_cons_self g rest), hfd]
      rw [replayGens_cons_some d g rest rd idx unc f hfd,
          replayGens_cons_some d2 g rest rd idx unc f hf2]
      cases loadCmds g f 0 idx unc with
      | error e => rfl
      | ok p =>
        obtain ⟨i2, u2⟩ := p
        exact ih (fun g' hg' => h g' (List.mem_cons_of_mem _ hg')) _ _ _

theorem replayGens_append (d : Dir) :
    ∀ (l1 l2 : List Nat) (rd : List (Nat × RState)) (idx : Index) (unc : Nat)
      (rd1 : List (Nat × RState)) (idx1 : Index) (unc1 : Nat),
    replayGens d l1 rd idx unc = .ok (rd1, idx1, unc1) →
    replayGens d (l1 ++ l2) rd idx unc = replayGens d l2 rd1 idx1 unc1 := by
  intro l1
  induction l1 with
  | nil =>
    intro l2 rd idx unc rd1 idx1 unc1 h
    simp only [replayGens, Except.ok.injEq, Prod.mk.injEq] at h
    rw [List.nil_append, h.1, h.2.1, h.2.2]
  | cons g rest ih =>
    intro l2 rd idx unc rd1 idx1 unc1 h
    rw [List.cons_append]
    cases hf : alookup (logName g) d with
    | none =>
      unfold replayGens at h
      rw [hf] at h
      exact Except.noConfusion h
    | some f =>
      unfold replayGens at h
      rw [hf] at h
      simp only at h
      rw [replayGens_cons_some d g (rest ++ l2) rd idx unc f hf]
      cases hl : loadCmds g f 0 idx unc with
      | error e =>
        rw [hl] at h
        exact Except.noConfusion h
      | ok p =>
        obtain ⟨i2, u2⟩ := p
        rw [hl] at h
        exact ih l2 _ _ _ _ _ _ h

theorem openStore_ok_parts {d : Dir} {s : KvStore} (h : openStore d = .ok s) :
    ∃ rdG idxG uncG, replayGens d (genList d) [] [] 0 = .ok (rdG, idxG, uncG) ∧
      (genList d).getLast?.getD 0 + 1 < 2 ^ 64 ∧
      s.dir = aupdate (logName ((genList d).getLast?.getD 0 + 1))
        ((alookup (logName ((genList d).getLast?.getD 0 + 1)) d).getD []) d ∧
      s.readers = aupdate ((genList d).getLast?.getD 0 + 1) ⟨0, 0⟩ rdG ∧
      s.writerOffset = 0 ∧ s.index = idxG ∧ s.load = true ∧
      s.currentGen = (genList d).getLast?.getD 0 + 1 ∧ s.uncompacted = uncG := by
  unfold openStore at h
  cases hrep : replayGens d (genList d) [] [] 0 with
  | error f =>
    rw [hrep] at h
    exact Except.noConfusion h
  | ok t =>
    obtain ⟨rdG, idxG, uncG⟩ := t
    rw [hrep] at h
    simp only at h
    by_cases hb : (genList d).getLast?.getD 0 + 1 < 2 ^ 64
    · rw [if_pos hb] at h
      cases Except.ok.inj h
      exact ⟨rdG, idxG, uncG, rfl, hb, rfl, rfl, rfl, rfl, rfl, rfl, rfl⟩
    · rw [if_neg hb] at h
      exact Except.noConfusion h

theorem alookup_isSome_of_mem_akeys {α β : Type} [DecidableEq α] {k : α}
    {l : List (α × β)} (h : k ∈ akeys l) : (alookup k l).isSome = true := by
  cases h2 : alookup k l with
  | some v => rfl
  | none => exact absurd h (alookup_none_iff.mp h2)

theorem alookup_logName_none {d : Dir} {g : Nat} (hg : g < 2 ^ 64)
    (hnot : g ∉ genList d) : alookup (logName g) d = none := by
  cases h : alookup (logName g) d with
  | none => rfl
  | some f =>
    exact absurd
      (mem_genList.mpr ⟨(logName g, f), alookup_mem h, parseGenName_logName hg⟩)
      hnot

theorem free_of_alookup_none {α β : Type} [DecidableEq α] {n : α}
    {l : List (α × β)} (h : alookup n l = none) : ∀ e ∈ l, e.1 ≠ n := by
  intro e he hcon
  exact (alookup_none_iff.mp h) (List.mem_map.mpr ⟨e, he, hcon⟩)

theorem setStreamKeys_stream {K : List String} :
    ∀ {l : List Token}, SetStreamKeys K l → SetStream l := by
  intro l h
  induction h with
  | nil => exact SetStream.nil
  | cons j w l2 hj h2 ih => exact SetStream.cons j w l2 ih

theorem setStreamKeys_nk {K : List String} {k : String} (hk : k ∉ K) :
    ∀ {l : List Token}, SetStreamKeys K l → SetStreamNK k l := by
  intro l h
  induction h with
  | nil => exact SetStreamNK.nil
  | cons j w l2 hj h2 ih => exact SetStreamNK.cons j w l2 (fun he => hk (he ▸ hj)) ih

theorem aupdate_alookup_self {α β : Type} [DecidableEq α] {k : α} {v : β} :
    ∀ {l : List (α × β)}, alookup k l = some v → aupdate k v l = l := by
  intro l
  induction l with
  | nil => intro h; exact Option.noConfusion h
  | cons p t ih =>
    intro h
    obtain ⟨a, b⟩ := p
    by_cases hp : a = k
    · subst hp
      rw [alookup_cons_self] at h
      rw [show aupdate a v ((a, b) :: t) = (a, v) :: t from by simp [aupdate]]
      rw [Option.some.inj h]
    · rw [alookup_cons_ne b t hp] at h
      rw [show aupdate k v ((a, b) :: t) = (a, b) :: aupdate k v t from by
        simp [aupdate, hp]]
      rw [ih h]

theorem setStreamKeys_mono {K K2 : List String} (hsub : ∀ x ∈ K, x ∈ K2) :
    ∀ {l : List Token}, SetStreamKeys K l → SetStreamKeys K2 l := by
  intro l h
  induction h with
  | nil => exact SetStreamKeys.nil
  | cons j w l2 hj h2 ih => exact SetStreamKeys.cons j w l2 (hsub j hj) ih

theorem compactLoop_content (cgen : Nat) :
    ∀ (entries : Index) (d : Dir) (rd : List (Nat × RState)) (off : Nat)
      (K : List String) (idx : Index) (dout : Dir)
      (rdout : List (Nat × RState)) (offout : Nat) (prev : List Token),
    KvStore.compactLoop cgen entries d rd off = .ok (idx, dout, rdout, offout) →
    (∀ e ∈ entries, e.2.gen ≠ cgen ∧ e.2.len = 3 ∧
      e.2.offset + 3 ≤ ((alookup (logName e.2.gen) d).getD []).length ∧
      ∃ w, ((((alookup (logName e.2.gen) d).getD []).drop e.2.offset).take 3 =
        encodeCommand (.set e.1 w))) →
    RInv cgen d (akeys entries ++ K) rd →
    (akeys entries ++ K).Nodup →
    alookup (logName cgen) d = some prev →
    ∃ added, SetStreamKeys (akeys entries) added ∧
      alookup (logName cgen) dout = some (prev ++ added) ∧
      (∀ name, name ≠ logName cgen → alookup name dout = alookup name d) ∧
      RInv cgen dout K rdout ∧
      (∀ g, (∀ e ∈ entries, e.2.gen ≠ g) → alookup g rdout = alookup g rd) ∧
      dout = aupdate (logName cgen) (prev ++ added) d := by
  intro entries
  induction entries with
  | nil =>
    intro d rd off K idx dout rdout offout prev h hE hR hND hprev
    simp only [KvStore.compactLoop, Except.ok.injEq, Prod.mk.injEq] at h
    obtain ⟨-, hd, hrd, -⟩ := h
    refine ⟨[], SetStreamKeys.nil, ?_, ?_, ?_, ?_, ?_⟩
    · rw [← hd, List.append_nil]
      exact hprev
    · intro name _
      rw [← hd]
    · rw [← hd, ← hrd]
      exact hR
    · intro g _
      rw [← hrd]
    · rw [← hd, List.append_nil]
      exact (aupdate_alookup_self hprev).symm
  | cons p rest ih =>
    intro d rd off K idx dout rdout offout prev h hE hR hND hprev
    obtain ⟨key, ops⟩ := p
    obtain ⟨hgen, hlen, hbound, w, hsl⟩ := hE (key, ops) (List.mem_cons_self _ _)
    dsimp only at hgen hlen hbound hsl
    have hcons : (akeys ((key, ops) :: rest) ++ K) = key :: (akeys rest ++ K) := rfl
    have hkeyfresh : key ∉ akeys rest ++ K := by
      rw [hcons] at hND
      exact (List.nodup_cons.mp hND).1
    have hND' : (akeys rest ++ K).Nodup := by
      rw [hcons] at hND
      exact (List.nodup_cons.mp hND).2
    unfold KvStore.compactLoop at h
    cases hr : alookup ops.gen rd with
    | none =>
      rw [hr] at h
      exact Except.noConfusion h
    | some r =>
      rw [hr] at h
      simp only at h
      split at h
      · exact Except.noConfusion h
      · rename_i x idxr d2 rd2 off2 heq
        simp only [Except.ok.injEq, Prod.mk.injEq] at h
        obtain ⟨hidx, hd, hrd, hoff⟩ := h
        have hCP :
            (((((alookup (logName ops.gen) d).getD []).drop
                (if r.offset ≠ ops.offset then RState.mk ops.offset ops.offset else r).pos).take
                ops.len = encodeCommand (.set key w)) ∧
              (if r.offset ≠ ops.offset then RState.mk ops.offset ops.offset else r).offset =
                ops.offset) ∨
            (((((alookup (logName ops.gen) d).getD []).drop
                (if r.offset ≠ ops.offset then RState.mk ops.offset ops.offset else r).pos).take
                ops.len = ([] : List Token)) ∧
              (if r.offset ≠ ops.offset then RState.mk ops.offset ops.offset else r) = r ∧
              r.offset = 0 ∧
              ((alookup (logName ops.gen) d).getD []).length ≤ r.pos) := by
          by_cases hseek : r.offset ≠ ops.offset
          · left
            constructor
            · rw [if_pos hseek]
              dsimp only
              rw [hlen]
              exact hsl
            · rw [if_pos hseek]
          · push_neg at hseek
            have hRr := hR (ops.gen, r) (alookup_mem hr) hgen
            dsimp only at hRr
            rcases hRr with ⟨hoff0, hpos⟩ | ⟨key', w', hk', hsl'⟩
            · rcases hpos with hp0 | hpfl
              · left
                have hops0 : ops.offset = 0 := by
                  rw [← hseek]
                  exact hoff0
                constructor
                · rw [if_neg (not_not_intro hseek)]
                  rw [hp0, hlen]
                  rw [hops0] at hsl
                  exact hsl
                · rw [if_neg (not_not_intro hseek)]
                  exact hseek
              · right
                refine ⟨?_, if_neg (not_not_intro hseek), hoff0, hpfl⟩
                rw [if_neg (not_not_intro hseek)]
                rw [List.drop_eq_nil_of_le hpfl]
                exact List.take_nil
            · exfalso
              rw [hseek] at hsl'
              rw [hsl] at hsl'
              simp only [encodeCommand, List.cons.injEq, Token.str.injEq, true_and,
                and_true] at hsl'
              have hkm : key ∈ akeys ((key, ops) :: rest) ++ K := by
                rw [hcons]
                exact List.mem_cons_self _ _
              exact hk' (hsl'.1 ▸ hkm)
        rcases hCP with ⟨hcp, hroff⟩ | ⟨hcp, hr1, hroff0, hrpos⟩
        · -- the full record of this entry's key is copied
          rw [hcp, hroff] at heq
          have hE' : ∀ e ∈ rest, e.2.gen ≠ cgen ∧ e.2.len = 3 ∧
              e.2.offset + 3 ≤ ((alookup (logName e.2.gen)
                (dirAppend d (logName cgen) (encodeCommand (.set key w)))).getD []).length ∧
              ∃ w2, ((((alookup (logName e.2.gen)
                (dirAppend d (logName cgen) (encodeCommand (.set key w)))).getD []).drop
                  e.2.offset).take 3 = encodeCommand (.set e.1 w2)) := by
            intro e he
            obtain ⟨h1, h2, h3, w2, h4⟩ := hE e (List.mem_cons_of_mem _ he)
            rw [dirAppend_other _ _ _ _ (fun hc => h1 (logName_inj hc))]
            exact ⟨h1, h2, h3, w2, h4⟩
          have hR' : ∀ X : Nat, RInv cgen
              (dirAppend d (logName cgen) (encodeCommand (.set key w)))
              (akeys rest ++ K) (aupdate ops.gen ⟨ops.offset, X⟩ rd) := by
            intro X p hp hne
            rcases mem_aupdate hp with hpe | hpe
            · right
              refine ⟨key, w, hkeyfresh, ?_⟩
              rw [hpe]
              dsimp only
              rw [dirAppend_other _ _ _ _ (fun hc => hgen (logName_inj hc))]
              exact hsl
            · rcases hR p hpe hne with ⟨h1, h2⟩ | ⟨key', w', hk', hsl'⟩
              · left
                rw [dirAppend_other _ _ _ _ (fun hc => hne (logName_inj hc))]
                exact ⟨h1, h2⟩
              · right
                refine ⟨key', w', ?_, ?_⟩
                · intro hc
                  apply hk'
                  rw [hcons]
                  exact List.mem_cons_of_mem _ hc
                · rw [dirAppend_other _ _ _ _ (fun hc => hne (logName_inj hc))]
                  exact hsl'
          have hprev' : alookup (logName cgen)
              (dirAppend d (logName cgen) (encodeCommand (.set key w))) =
              some (prev ++ encodeCommand (.set key w)) := by
            rw [dirAppend_self, hprev]
            rfl
          obtain ⟨added2, hstream2, hlook2, hnames2, hRout, hrdpres, hstruct2⟩ :=
            ih _ _ _ K _ _ _ _ (prev ++ encodeCommand (.set key w)) heq hE' (hR' _)
              hND' hprev'
          refine ⟨encodeCommand (.set key w) ++ added2, ?_, ?_, ?_, ?_, ?_, ?_⟩
          · show SetStreamKeys _ (Token.setTag :: Token.str key :: Token.str w :: added2)
            refine SetStreamKeys.cons key w added2 ?_ ?_
            · rw [show akeys ((key, ops) :: rest) = key :: akeys rest from rfl]
              exact List.mem_cons_self _ _
            · refine setStreamKeys_mono ?_ hstream2
              intro a ha
              rw [show akeys ((key, ops) :: rest) = key :: akeys rest from rfl]
              exact List.mem_cons_of_mem _ ha
          · rw [← hd, hlook2, List.append_assoc]
          · intro name hn
            rw [← hd, hnames2 name hn,
              dirAppend_other _ _ _ _ hn]
          · rw [← hd, ← hrd]
            exact hRout
          · intro g hg
            rw [← hrd, hrdpres g (fun e he => hg e (List.mem_cons_of_mem _ he))]
            exact alookup_aupdate_of_ne _ rd
              (Ne.symm (hg (key, ops) (List.mem_cons_self _ _)))
          · rw [← hd, hstruct2]
            simp only [dirAppend, hprev, Option.getD_some]
            rw [aupdate_aupdate_same, List.append_assoc]
        · -- the reader cursor is past end of file: nothing is copied
          rw [hcp, hr1] at heq
          have hE' : ∀ e ∈ rest, e.2.gen ≠ cgen ∧ e.2.len = 3 ∧
              e.2.offset + 3 ≤ ((alookup (logName e.2.gen)
                (dirAppend d (logName cgen) ([] : List Token))).getD []).length ∧
              ∃ w2, ((((alookup (logName e.2.gen)
                (dirAppend d (logName cgen) ([] : List Token))).getD []).drop
                  e.2.offset).take 3 = encodeCommand (.set e.1 w2)) := by
            intro e he
            obtain ⟨h1, h2, h3, w2, h4⟩ := hE e (List.mem_cons_of_mem _ he)
            rw [dirAppend_other _ _ _ _ (fun hc => h1 (logName_inj hc))]
            exact ⟨h1, h2, h3, w2, h4⟩
          have hR' : ∀ X : Nat, r.pos ≤ X → RInv cgen
              (dirAppend d (logName cgen) ([] : List Token))
              (akeys rest ++ K) (aupdate ops.gen ⟨r.offset, X⟩ rd) := by
            intro X hX p hp hne
            rcases mem_aupdate hp with hpe | hpe
            · left
              rw [hpe]
              dsimp only
              refine ⟨hroff0, Or.inr ?_⟩
              rw [dirAppend_other _ _ _ _ (fun hc => hgen (logName_inj hc))]
              exact le_trans hrpos hX
            · rcases hR p hpe hne with ⟨h1, h2⟩ | ⟨key', w', hk', hsl'⟩
              · left
                rw [dirAppend_other _ _ _ _ (fun hc => hne (logName_inj hc))]
                exact ⟨h1, h2⟩
              · right
                refine ⟨key', w', ?_, ?_⟩
                · intro hc
                  apply hk'
                  rw [hcons]
                  exact List.mem_cons_of_mem _ hc
                · rw [dirAppend_other _ _ _ _ (fun hc => hne (logName_inj hc))]
                  exact hsl'
          have hprev' : alookup (logName cgen)
              (dirAppend d (logName cgen) ([] : List Token)) = some prev := by
            rw [dirAppend_self, hprev]
            simp
          obtain ⟨added2, hstream2, hlook2, hnames2, hRout, hrdpres, hstruct2⟩ :=
            ih _ _ _ K _ _ _ _ prev heq hE' (hR' _ (Nat.le_add_right _ _)) hND' hprev'
          refine ⟨added2, ?_, ?_, ?_, ?_, ?_, ?_⟩
          · refine setStreamKeys_mono ?_ hstream2
            intro a ha
            rw [show akeys ((key, ops) :: rest) = key :: akeys rest from rfl]
            exact List.mem_cons_of_mem _ ha
          · rw [← hd, hlook2]
          · intro name hn
            rw [← hd, hnames2 name hn, dirAppend_other _ _ _ _ hn]
          · rw [← hd, ← hrd]
            exact hRout
          · intro g hg
            rw [← hrd, hrdpres g (fun e he => hg e (List.mem_cons_of_mem _ he))]
            exact alookup_aupdate_of_ne _ rd
              (Ne.symm (hg (key, ops) (List.mem_cons_self _ _)))
          · rw [← hd, hstruct2]
            simp [dirAppend, hprev, aupdate_aupdate_same]

theorem alookup_split {α β : Type} [DecidableEq α] {k : α} {v : β} :
    ∀ {l : List (α × β)}, alookup k l = some v →
    ∃ l1 l2, l = l1 ++ (k, v) :: l2 ∧ ∀ e ∈ l1, e.1 ≠ k := by
  intro l
  induction l with
  | nil => intro h; exact Option.noConfusion h
  | cons p t ih =>
    intro h
    obtain ⟨a, b⟩ := p
    by_cases hp : a = k
    · subst hp
      rw [alookup_cons_self] at h
      refine ⟨[], t, ?_, fun e he => absurd he (List.not_mem_nil e)⟩
      rw [List.nil_append, Option.some.inj h]
    · rw [alookup_cons_ne b t hp] at h
      obtain ⟨l1, l2, hl, hfree⟩ := ih h
      refine ⟨(a, b) :: l1, l2, ?_, ?_⟩
      · rw [List.cons_append, ← hl]
      · intro e he
        rcases List.mem_cons.mp he with he2 | he2
        · rw [he2]
          exact hp
        · exact hfree e he2

theorem compactLoop_split (cgen : Nat) :
    ∀ (E1 E2 : Index) (d : Dir) (rd : List (Nat × RState)) (off : Nat)
      (idx : Index) (dout : Dir) (rdout : List (Nat × RState)) (offout : Nat),
    KvStore.compactLoop cgen (E1 ++ E2) d rd off = .ok (idx, dout, rdout, offout) →
    ∃ idx1 d1 rd1 off1 idx2,
      KvStore.compactLoop cgen E1 d rd off = .ok (idx1, d1, rd1, off1) ∧
      KvStore.compactLoop cgen E2 d1 rd1 off1 = .ok (idx2, dout, rdout, offout) ∧
      idx = idx1 ++ idx2 := by
  intro E1
  induction E1 with
  | nil =>
    intro E2 d rd off idx dout rdout offout h
    rw [List.nil_append] at h
    exact ⟨[], d, rd, off, idx, rfl, h, rfl⟩
  | cons p rest ih =>
    intro E2 d rd off idx dout rdout offout h
    obtain ⟨key, ops⟩ := p
    rw [List.cons_append] at h
    unfold KvStore.compactLoop at h
    cases hr : alookup ops.gen rd with
    | none =>
      rw [hr] at h
      exact Except.noConfusion h
    | some r =>
      rw [hr] at h
      simp only at h
      split at h
      · exact Except.noConfusion h
      · rename_i x idxr d2 rd2 off2 heq
        simp only [Except.ok.injEq, Prod.mk.injEq] at h
        obtain ⟨hidx, hd, hrd, hoff⟩ := h
        obtain ⟨idx1, d1, rd1, off1, idx2, h1, h2, h3⟩ := ih E2 _ _ _ _ _ _ _ heq
        refine ⟨(key, CommandOps.mk cgen off
            (off + ((((alookup (logName ops.gen) d).getD []).drop
              (if r.offset ≠ ops.offset then RState.mk ops.offset ops.offset else r).pos).take
                ops.len).length - off)) :: idx1, d1, rd1, off1, idx2, ?_, ?_, ?_⟩
        · unfold KvStore.compactLoop
          rw [hr]
          simp only
          rw [h1]
        · rw [hd] at h2
          rw [hrd] at h2
          rw [hoff] at h2
          exact h2
        · rw [← hidx, h3, List.cons_append]

theorem reopen_after_set (d : Dir) (k v : String) (rdG : List (Nat × RState))
    (idxG : Index) (uncG : Nat) (M1 : Nat)
    (hM1 : M1 = (genList d).getLast?.getD 0 + 1)
    (hrep : replayGens d (genList d) [] [] 0 = .ok (rdG, idxG, uncG))
    (hbound : M1 + 1 < 2 ^ 64) :
    ∃ s2, openStore (d ++ [(logName M1, encodeCommand (.set k v))]) = .ok s2 ∧
      (KvStore.get s2 k).1 = .ok (some v) := by
  have hM1big : ∀ g ∈ genList d, g < M1 := by
    intro g hg
    have := mem_genList_le hg
    omega
  have hnotmem : M1 ∉ genList d := fun hc => absurd rfl (Nat.ne_of_lt (hM1big M1 hc))
  have habs : alookup (logName M1) d = none :=
    alookup_logName_none (by omega) hnotmem
  have hfree : ∀ e ∈ d, e.1 ≠ logName M1 := free_of_alookup_none habs
  have hp : parseGenName (logName M1) = some M1 := parseGenName_logName (by omega)
  have hglist : genList (d ++ [(logName M1, encodeCommand (.set k v))]) =
      genList d ++ [M1] :=
    genList_append_single hp (fun g hg => Nat.le_of_lt (hM1big g hg))
  have hcongr : ∀ g ∈ genList d,
      alookup (logName g) (d ++ [(logName M1, encodeCommand (.set k v))]) =
        alookup (logName g) d := by
    intro g hg
    apply alookup_append_of_free
    intro e he hc
    rw [List.mem_singleton.mp he] at hc
    exact absurd (logName_inj hc) (Nat.ne_of_lt (hM1big g hg)).symm
  have hrep4 : replayGens (d ++ [(logName M1, encodeCommand (.set k v))])
      (genList d) [] [] 0 = .ok (rdG, idxG, uncG) := by
    rw [replayGens_congr _ d (genList d) hcongr]
    exact hrep
  have hfile : alookup (logName M1) (d ++ [(logName M1, encodeCommand (.set k v))]) =
      some (encodeCommand (.set k v)) :=
    alookup_append_found _ [] hfree
  have hstep : replayGens (d ++ [(logName M1, encodeCommand (.set k v))]) [M1]
      rdG idxG uncG = .ok
      (aupdate M1 ⟨0, (encodeCommand (.set k v)).length⟩ rdG,
       aupdate k ⟨M1, 0, 3⟩ idxG,
       (match alookup k idxG with | some ops => uncG + ops.len | none => uncG)) := by
    rw [replayGens_cons_some _ M1 [] rdG idxG uncG _ hfile]
    rfl
  have hrepfull : replayGens (d ++ [(logName M1, encodeCommand (.set k v))])
      (genList (d ++ [(logName M1, encodeCommand (.set k v))])) [] [] 0 = .ok
      (aupdate M1 ⟨0, (encodeCommand (.set k v)).length⟩ rdG,
       aupdate k ⟨M1, 0, 3⟩ idxG,
       (match alookup k idxG with | some ops => uncG + ops.len | none => uncG)) := by
    rw [hglist, replayGens_append _ (genList d) [M1] _ _ _ _ _ _ hrep4]
    exact hstep
  have hlast : (genList (d ++ [(logName M1, encodeCommand (.set k v))])).getLast?.getD 0 =
      M1 := by
    rw [hglist, List.getLast?_concat]
    rfl
  have hex : ∃ s2, openStore (d ++ [(logName M1, encodeCommand (.set k v))]) =
      .ok s2 := by
    unfold openStore
    rw [hrepfull, hlast]
    simp only
    rw [if_pos hbound]
    exact ⟨_, rfl⟩
  obtain ⟨s2, hopen4⟩ := hex
  obtain ⟨rdG', idxG', uncG', hrep', hb', hdir2, hrd2, hwo2, hidx2, hld2, hcg2, hun2⟩ :=
    openStore_ok_parts hopen4
  rw [hrepfull] at hrep'
  simp only [Except.ok.injEq, Prod.mk.injEq] at hrep'
  obtain ⟨hr1, hr2, hr3⟩ := hrep'
  refine ⟨s2, hopen4, ?_⟩
  apply get_found s2 k v M1 0 3 hld2
  · rw [hidx2, ← hr2, alookup_aupdate_self]
  · rw [hrd2, hlast, ← hr1]
    rw [alookup_aupdate_of_ne _ _ (by omega : M1 ≠ M1 + 1)]
    rw [alookup_aupdate_self]
    rfl
  · rw [hdir2, hlast]
    rw [alookup_aupdate_of_ne _ _ (fun hc => by
      have := logName_inj hc
      omega)]
    rw [hfile]
    rfl

theorem reopen_compacted (dres : Dir) (k v : String) (M : Nat) (P Q : List Token)
    (hparse : ∀ n ∈ akeys dres, parseGenName n = none)
    (hP : SetStream P) (hQ : SetStreamNK k Q)
    (hbound : M + 4 < 2 ^ 64) :
    ∃ s2, openStore (dres ++ [(logName (M + 3), []),
        (logName (M + 2), P ++ (Token.setTag :: Token.str k :: Token.str v :: Q))]) =
      .ok s2 ∧ (KvStore.get s2 k).1 = .ok (some v) := by
  have hfree : ∀ g : Nat, g < 2 ^ 64 → ∀ e ∈ dres, e.1 ≠ logName g := by
    intro g hg e he hc
    have h1 := hparse e.1 (List.mem_map.mpr ⟨e, he, rfl⟩)
    rw [hc, parseGenName_logName hg] at h1
    exact Option.noConfusion h1
  have hglist : genList (dres ++ [(logName (M + 3), []),
      (logName (M + 2), P ++ (Token.setTag :: Token.str k :: Token.str v :: Q))]) =
      [M + 2, M + 3] := by
    unfold genList
    rw [List.map_append, List.filterMap_append]
    have h1 : List.filterMap parseGenName (List.map Prod.fst dres) = [] := by
      rw [List.filterMap_eq_nil_iff]
      intro a ha
      exact hparse a ha
    have h2 : List.filterMap parseGenName (List.map Prod.fst
        [(logName (M + 3), ([] : List Token)),
         (logName (M + 2), P ++ (Token.setTag :: Token.str k :: Token.str v :: Q))]) =
        [M + 3, M + 2] := by
      simp [parseGenName_logName (show M + 3 < 2 ^ 64 by omega),
        parseGenName_logName (show M + 2 < 2 ^ 64 by omega)]
    rw [h1, h2, List.nil_append]
    simp only [List.insertionSort, List.orderedInsert]
    rw [if_neg (by omega : ¬ (M + 3 ≤ M + 2))]
  have hd4assoc : dres ++ [(logName (M + 3), ([] : List Token)),
      (logName (M + 2), P ++ (Token.setTag :: Token.str k :: Token.str v :: Q))] =
      (dres ++ [(logName (M + 3), [])]) ++
        (logName (M + 2), P ++ (Token.setTag :: Token.str k :: Token.str v :: Q)) :: [] := by
    simp
  have hlook2 : alookup (logName (M + 2)) (dres ++ [(logName (M + 3), []),
      (logName (M + 2), P ++ (Token.setTag :: Token.str k :: Token.str v :: Q))]) =
      some (P ++ (Token.setTag :: Token.str k :: Token.str v :: Q)) := by
    rw [hd4assoc]
    apply alookup_append_found
    intro e he
    rcases List.mem_append.mp he with he1 | he1
    · exact hfree (M + 2) (by omega) e he1
    · rw [List.mem_singleton.mp he1]
      exact fun hc => (by omega : M + 3 ≠ M + 2) (logName_inj hc)
  have hlook3 : alookup (logName (M + 3)) (dres ++ [(logName (M + 3), []),
      (logName (M + 2), P ++ (Token.setTag :: Token.str k :: Token.str v :: Q))]) =
      some ([] : List Token) :=
    alookup_append_found _ _ (hfree (M + 3) (by omega))
  obtain ⟨idx2, unc2, hload2, hkey2⟩ := loadCmds_content (M + 2) k v hP hQ [] 0
  have hrepfull : replayGens (dres ++ [(logName (M + 3), []),
      (logName (M + 2), P ++ (Token.setTag :: Token.str k :: Token.str v :: Q))])
      (genList (dres ++ [(logName (M + 3), []),
        (logName (M + 2), P ++ (Token.setTag :: Token.str k :: Token.str v :: Q))]))
      [] [] 0 = .ok
      (aupdate (M + 3) ⟨0, ([] : List Token).length⟩
        (aupdate (M + 2)
          ⟨0, (P ++ (Token.setTag :: Token.str k :: Token.str v :: Q)).length⟩ []),
       idx2, unc2) := by
    rw [hglist]
    rw [replayGens_cons_some _ (M + 2) [M + 3] [] [] 0 _ hlook2, hload2]
    show replayGens _ [M + 3]
      (aupdate (M + 2)
        ⟨0, (P ++ (Token.setTag :: Token.str k :: Token.str v :: Q)).length⟩ [])
      idx2 unc2 = _
    rw [replayGens_cons_some _ (M + 3) [] _ _ _ _ hlook3]
    rfl
  have hlast : (genList (dres ++ [(logName (M + 3), []),
      (logName (M + 2), P ++ (Token.setTag :: Token.str k :: Token.str v :: Q))])).getLast?.getD 0 =
      M + 3 := by
    rw [hglist]
    rfl
  have hex : ∃ s2, openStore (dres ++ [(logName (M + 3), []),
      (logName (M + 2), P ++ (Token.setTag :: Token.str k :: Token.str v :: Q))]) =
      .ok s2 := by
    unfold openStore
    rw [hrepfull, hlast]
    simp only
    rw [if_pos (by omega : M + 3 + 1 < 2 ^ 64)]
    exact ⟨_, rfl⟩
  obtain ⟨s2, hopen4⟩ := hex
  obtain ⟨rdG', idxG', uncG', hrep', hb', hdir2, hrd2, hwo2, hidx2, hld2, hcg2, hun2⟩ :=
    openStore_ok_parts hopen4
  rw [hrepfull] at hrep'
  simp only [Except.ok.injEq, Prod.mk.injEq] at hrep'
  obtain ⟨hr1, hr2, hr3⟩ := hrep'
  refine ⟨s2, hopen4, ?_⟩
  apply get_found s2 k v (M + 2) P.length 3 hld2
  · rw [hidx2, ← hr2]
    exact hkey2
  · rw [hrd2, hlast, ← hr1]
    rw [alookup_aupdate_of_ne _ _ (by omega : M + 2 ≠ M + 3 + 1)]
    rw [alookup_aupdate_of_ne _ _ (by omega : M + 2 ≠ M + 3)]
    rw [alookup_aupdate_self]
    rfl
  · rw [hdir2, hlast]
    rw [alookup_aupdate_of_ne _ _ (fun hc =>
      (by omega : M + 2 ≠ M + 3 + 1) (logName_inj hc))]
    rw [hlook2]
    show ((P ++ (Token.setTag :: Token.str k :: Token.str v :: Q)).drop P.length).take 3 = _
    rw [List.drop_left]
    rfl

theorem mem_foldl_aerase {e : String × List Token} :
    ∀ (L : List Nat) (d : Dir),
    e ∈ L.foldl (fun dd g => aerase (logName g) dd) d → e ∈ d := by
  intro L
  induction L with
  | nil => intro d h; exact h
  | cons g0 rest ih =>
    intro d h
    exact mem_aerase (ih (aerase (logName g0) d) h)

theorem compact_then_reopen (d : Dir) (k v : String) (rdG : List (Nat × RState))
    (idxG : Index) (uncG XU WOF : Nat) (u2 : Unit) (s3 : KvStore) (MM : Nat)
    (hnd : NoDupKeys d)
    (hcanon : ∀ e ∈ d, ∀ g, parseGenName e.1 = some g → e.1 = logName g)
    (hMle : ∀ g ∈ genList d, g ≤ MM)
    (hbound : MM + 4 < 2 ^ 64)
    (hrep : replayGens d (genList d) [] [] 0 = .ok (rdG, idxG, uncG))
    (heqc : KvStore.compact
      { dir := d ++ [(logName (MM + 1), encodeCommand (.set k v))],
        readers := aupdate (MM + 1) ⟨0, 0⟩ rdG,
        writerOffset := WOF,
        index := aupdate k ⟨MM + 1, 0, 3⟩ idxG,
        load := true, currentGen := MM + 1, uncompacted := XU } = (.ok u2, s3)) :
    ∃ s2, openStore s3.dir = .ok s2 ∧ (KvStore.get s2 k).1 = .ok (some v) := by
  have hGmem : ∀ g, g ∈ akeys rdG ↔ g ∈ genList d := by
    intro g
    have h := replayGens_akeys_mem d (genList d) [] [] 0 rdG idxG uncG hrep g
    simpa [akeys] using h
  have hGle : ∀ g ∈ akeys rdG, g ≤ MM := fun g hg => hMle g ((hGmem g).mp hg)
  have hnotG : ∀ j : Nat, MM < j → j ∉ akeys rdG := fun j hj hc => by
    have := hGle j hc
    omega
  have habs : ∀ j : Nat, MM < j → j < 2 ^ 64 → alookup (logName j) d = none :=
    fun j hj hjb => alookup_logName_none hjb (fun hc => by
      have := hMle j hc
      omega)
  have hfreed : ∀ j : Nat, MM < j → j < 2 ^ 64 → ∀ e ∈ d, e.1 ≠ logName j :=
    fun j hj hjb => free_of_alookup_none (habs j hj hjb)
  have hidxGent : ∀ e ∈ idxG, ∃ g ∈ genList d, e.2.gen = g ∧ e.2.len = 3 ∧
      e.2.offset + 3 ≤ ((alookup (logName g) d).getD []).length ∧
      ∃ w, ((((alookup (logName g) d).getD []).drop e.2.offset).take 3 =
        encodeCommand (.set e.1 w)) := by
    intro e he
    rcases replayGens_entries d (genList d) [] [] 0 rdG idxG uncG hrep e he with h0 | h1
    · exact absurd h0 (List.not_mem_nil e)
    · exact h1
  have hidxGnodup : NoDupKeys idxG :=
    replayGens_nodup d (genList d) [] [] 0 rdG idxG uncG hrep (by simp [NoDupKeys, akeys])
  unfold KvStore.compact at heqc
  dsimp only at heqc
  rw [if_pos (by omega : MM + 1 + 2 < 2 ^ 64)] at heqc
  dsimp only [newLogFile] at heqc
  rw [show MM + 1 + 1 = MM + 2 from rfl, show MM + 1 + 2 = MM + 3 from rfl] at heqc
  have hn1freesuf : ∀ e ∈ [(logName (MM + 1), encodeCommand (Command.set k v))],
      e.1 ≠ logName (MM + 3) := by
    intro e he hc
    rw [List.mem_singleton.mp he] at hc
    exact (by omega : ¬ (MM + 1 = MM + 3)) (logName_inj hc)
  have habs3 : alookup (logName (MM + 3))
      (d ++ [(logName (MM + 1), encodeCommand (Command.set k v))]) = none := by
    rw [alookup_append_of_free _ hn1freesuf d]
    exact habs (MM + 3) (by omega) (by omega)
  have hD1 : aupdate (logName (MM + 3))
      ((alookup (logName (MM + 3))
        (d ++ [(logName (MM + 1), encodeCommand (Command.set k v))])).getD [])
      (d ++ [(logName (MM + 1), encodeCommand (Command.set k v))]) =
      (d ++ [(logName (MM + 1), encodeCommand (Command.set k v))]) ++
        [(logName (MM + 3), [])] := by
    rw [habs3]
    exact aupdate_of_none _ habs3
  rw [hD1] at heqc
  have habs2 : alookup (logName (MM + 2))
      ((d ++ [(logName (MM + 1), encodeCommand (Command.set k v))]) ++
        [(logName (MM + 3), [])]) = none := by
    rw [alookup_append_of_free _ (by
      intro e he hc
      rw [List.mem_singleton.mp he] at hc
      exact (by omega : ¬ (MM + 3 = MM + 2)) (logName_inj hc)) _]
    rw [alookup_append_of_free _ (by
      intro e he hc
      rw [List.mem_singleton.mp he] at hc
      exact (by omega : ¬ (MM + 1 = MM + 2)) (logName_inj hc)) d]
    exact habs (MM + 2) (by omega) (by omega)
  have hD2 : aupdate (logName (MM + 2))
      ((alookup (logName (MM + 2))
        ((d ++ [(logName (MM + 1), encodeCommand (Command.set k v))]) ++
          [(logName (MM + 3), [])])).getD [])
      ((d ++ [(logName (MM + 1), encodeCommand (Command.set k v))]) ++
        [(logName (MM + 3), [])]) =
      ((d ++ [(logName (MM + 1), encodeCommand (Command.set k v))]) ++
        [(logName (MM + 3), [])]) ++ [(logName (MM + 2), [])] := by
    rw [habs2]
    exact aupdate_of_none _ habs2
  rw [hD2] at heqc
  split at heqc
  · exact absurd (congrArg Prod.fst heqc) (by simp)
  · rename_i x2 idxC d3 rd3 off3 hloop
    have hs3 := (Prod.mk.injEq .. ▸ heqc).2
    have hsdir := congrArg KvStore.dir hs3
    dsimp only at hsdir
    have hksome : alookup k (aupdate k (CommandOps.mk (MM + 1) 0 3) idxG) =
        some (CommandOps.mk (MM + 1) 0 3) := alookup_aupdate_self k _ idxG
    obtain ⟨E1, E2, hsplitidx, hfreeE1⟩ := alookup_split hksome
    have hndS : NoDupKeys (aupdate k (CommandOps.mk (MM + 1) 0 3) idxG) :=
      noDupKeys_aupdate _ _ hidxGnodup
    have hakS : akeys (E1 ++ (k, CommandOps.mk (MM + 1) 0 3) :: E2) =
        akeys E1 ++ k :: akeys E2 := by
      simp [akeys]
    have hndsplit : (akeys E1 ++ k :: akeys E2).Nodup := by
      rw [← hakS, ← hsplitidx]
      exact hndS
    have hkE2 : k ∉ akeys E2 :=
      (List.nodup_cons.mp (List.Nodup.of_append_right hndsplit)).1
    have hmemS : ∀ e : String × CommandOps, e ∈ E1 ∨ e ∈ E2 →
        e ∈ aupdate k (CommandOps.mk (MM + 1) 0 3) idxG := by
      intro e he
      rw [hsplitidx]
      rcases he with he | he
      · exact List.mem_append_left _ he
      · exact List.mem_append_right _ (List.mem_cons_of_mem _ he)
    have hEprops : ∀ e : String × CommandOps, e ∈ E1 ∨ e ∈ E2 → e.1 ≠ k →
        ∃ g ∈ genList d, e.2.gen = g ∧ e.2.len = 3 ∧
        e.2.offset + 3 ≤ ((alookup (logName g) d).getD []).length ∧
        ∃ w, ((((alookup (logName g) d).getD []).drop e.2.offset).take 3 =
          encodeCommand (.set e.1 w)) := by
      intro e he hek
      rcases mem_aupdate (hmemS e he) with he2 | he2
      · exact absurd (congrArg Prod.fst he2) hek
      · exact hidxGent e he2
    rw [hsplitidx] at hloop
    obtain ⟨idx1, dx1, rdx1, offx1, idx2', h1, h2, hidxglue⟩ :=
      compactLoop_split (MM + 2) E1 _ _ _ _ _ _ _ _ hloop
    have hD2flatlook : ∀ j : Nat, j ≤ MM → alookup (logName j)
        (((d ++ [(logName (MM + 1), encodeCommand (Command.set k v))]) ++
          [(logName (MM + 3), [])]) ++ [(logName (MM + 2), [])]) =
        alookup (logName j) d := by
      intro j hj
      rw [alookup_append_of_free _ (by
        intro e he hc
        rw [List.mem_singleton.mp he] at hc
        exact (by omega : ¬ (MM + 2 = j)) (logName_inj hc)) _]
      rw [alookup_append_of_free _ (by
        intro e he hc
        rw [List.mem_singleton.mp he] at hc
        exact (by omega : ¬ (MM + 3 = j)) (logName_inj hc)) _]
      rw [alookup_append_of_free _ (by
        intro e he hc
        rw [List.mem_singleton.mp he] at hc
        exact (by omega : ¬ (MM + 1 = j)) (logName_inj hc)) d]
    have hE1inv : ∀ e ∈ E1, e.2.gen ≠ MM + 2 ∧ e.2.len = 3 ∧
        e.2.offset + 3 ≤ ((alookup (logName e.2.gen)
          (((d ++ [(logName (MM + 1), encodeCommand (Command.set k v))]) ++
            [(logName (MM + 3), [])]) ++ [(logName (MM + 2), [])])).getD []).length ∧
        ∃ w, (((alookup (logName e.2.gen)
          (((d ++ [(logName (MM + 1), encodeCommand (Command.set k v))]) ++
            [(logName (MM + 3), [])]) ++ [(logName (MM + 2), [])])).getD []).drop
              e.2.offset).take 3 = encodeCommand (.set e.1 w) := by
      intro e he
      obtain ⟨g, hgmem, hgen, hlen, hbnd, w2, hsl2⟩ :=
        hEprops e (Or.inl he) (hfreeE1 e he)
      have hgle := hMle g hgmem
      rw [hgen]
      rw [hD2flatlook g hgle]
      exact ⟨by omega, hlen, hbnd, w2, hsl2⟩
    have hRinit : ∀ K' : List String, RInv (MM + 2)
        (((d ++ [(logName (MM + 1), encodeCommand (Command.set k v))]) ++
          [(logName (MM + 3), [])]) ++ [(logName (MM + 2), [])]) K'
        (aupdate (MM + 2) ⟨0, 0⟩ (aupdate (MM + 3) ⟨0, 0⟩
          (aupdate (MM + 1) ⟨0, 0⟩ rdG))) := by
      intro K' p hp hne
      rcases mem_aupdate hp with hpe | hp1
      · exfalso
        rw [hpe] at hne
        exact hne rfl
      rcases mem_aupdate hp1 with hpe | hp2
      · left
        rw [hpe]
        exact ⟨rfl, Or.inl rfl⟩
      rcases mem_aupdate hp2 with hpe | hp3
      · left
        rw [hpe]
        exact ⟨rfl, Or.inl rfl⟩
      · rcases replayGens_readers d (genList d) [] [] 0 rdG idxG uncG hrep p hp3 with
          h0 | ⟨hm, hval⟩
        · exact absurd h0 (List.not_mem_nil p)
        · left
          rw [hval]
          refine ⟨rfl, Or.inr ?_⟩
          dsimp only
          rw [hD2flatlook p.1 (hMle _ hm)]
    have hprev1 : alookup (logName (MM + 2))
        (((d ++ [(logName (MM + 1), encodeCommand (Command.set k v))]) ++
          [(logName (MM + 3), [])]) ++ [(logName (MM + 2), [])]) =
        some ([] : List Token) := by
      apply alookup_append_found
      intro e he
      rcases List.mem_append.mp he with he1 | he1
      · rcases List.mem_append.mp he1 with he2 | he2
        · exact hfreed (MM + 2) (by omega) (by omega) e he2
        · intro hc
          rw [List.mem_singleton.mp he2] at hc
          exact (by omega : ¬ (MM + 1 = MM + 2)) (logName_inj hc)
      · intro hc
        rw [List.mem_singleton.mp he1] at hc
        exact (by omega : ¬ (MM + 3 = MM + 2)) (logName_inj hc)
    obtain ⟨added1, hstr1, halk1, hnames1, hRmid, hrdpres1, hstruct1⟩ :=
      compactLoop_content (MM + 2) E1 _ _ _ (k :: akeys E2) _ _ _ _ [] h1 hE1inv
        (hRinit _) hndsplit hprev1
    have hgensE1 : ∀ e ∈ E1, e.2.gen ≠ MM + 1 := by
      intro e he
      obtain ⟨g, hg, hgen, -, -, -⟩ := hEprops e (Or.inl he) (hfreeE1 e he)
      rw [hgen]
      have := hMle g hg
      omega
    have hrdklookup : alookup (MM + 1) rdx1 = some (⟨0, 0⟩ : RState) := by
      rw [hrdpres1 (MM + 1) hgensE1]
      rw [alookup_aupdate_of_ne _ _ (by omega : MM + 1 ≠ MM + 2)]
      rw [alookup_aupdate_of_ne _ _ (by omega : MM + 1 ≠ MM + 3)]
      exact alookup_aupdate_self _ _ rdG
    unfold KvStore.compactLoop at h2
    rw [hrdklookup] at h2
    simp only at h2
    rw [if_neg (by omega : ¬ ((0 : Nat) ≠ 0))] at h2
    have hn1dx1 : alookup (logName (MM + 1)) dx1 =
        some (encodeCommand (Command.set k v)) := by
      rw [hnames1 _ (fun hc => (by omega : ¬ (MM + 1 = MM + 2)) (logName_inj hc))]
      rw [alookup_append_of_free _ (by
        intro e he hc
        rw [List.mem_singleton.mp he] at hc
        exact (by omega : ¬ (MM + 2 = MM + 1)) (logName_inj hc)) _]
      rw [alookup_append_of_free _ (by
        intro e he hc
        rw [List.mem_singleton.mp he] at hc
        exact (by omega : ¬ (MM + 3 = MM + 1)) (logName_inj hc)) _]
      exact alookup_append_found _ [] (hfreed (MM + 1) (by omega) (by omega))
    rw [hn1dx1] at h2
    simp only [Option.getD_some] at h2
    rw [show ((encodeCommand (Command.set k v)).drop (0 : Nat)).take 3 =
      encodeCommand (Command.set k v) from rfl] at h2
    split at h2
    · exact Except.noConfusion h2
    · rename_i x3 idxE2 d3' rd3' off3' hloop2
      simp only [Except.ok.injEq, Prod.mk.injEq] at h2
      obtain ⟨hidx2eq, hd3eq, hrd3eq, hoff3eq⟩ := h2
      have hE2inv : ∀ e ∈ E2, e.2.gen ≠ MM + 2 ∧ e.2.len = 3 ∧
          e.2.offset + 3 ≤ ((alookup (logName e.2.gen)
            (dirAppend dx1 (logName (MM + 2))
              (encodeCommand (Command.set k v)))).getD []).length ∧
          ∃ w, (((alookup (logName e.2.gen)
            (dirAppend dx1 (logName (MM + 2))
              (encodeCommand (Command.set k v)))).getD []).drop
                e.2.offset).take 3 = encodeCommand (.set e.1 w) := by
        intro e he
        have hek : e.1 ≠ k := by
          intro hc
          exact hkE2 (hc ▸ List.mem_map.mpr ⟨e, he, rfl⟩)
        obtain ⟨g, hgmem, hgen, hlen, hbnd, w2, hsl2⟩ := hEprops e (Or.inr he) hek
        have hgle := hMle g hgmem
        rw [hgen]
        rw [dirAppend_other _ _ _ _ (fun hc =>
          (by omega : ¬ (g = MM + 2)) (logName_inj hc))]
        rw [hnames1 _ (fun hc => (by omega : ¬ (g = MM + 2)) (logName_inj hc))]
        rw [hD2flatlook g hgle]
        exact ⟨by omega, hlen, hbnd, w2, hsl2⟩
      have hR2 : ∀ X : Nat, RInv (MM + 2)
          (dirAppend dx1 (logName (MM + 2)) (encodeCommand (Command.set k v)))
          (akeys E2 ++ []) (aupdate (MM + 1) ⟨0, X⟩ rdx1) := by
        intro X p hp hne
        rcases mem_aupdate hp with hpe | hpe
        · right
          refine ⟨k, v, ?_, ?_⟩
          · intro hc
            rw [List.append_nil] at hc
            exact hkE2 hc
          · rw [hpe]
            dsimp only
            rw [dirAppend_other _ _ _ _ (fun hc =>
              (by omega : ¬ (MM + 1 = MM + 2)) (logName_inj hc))]
            rw [hn1dx1]
            rfl
        · rcases hRmid p hpe hne with ⟨ha1, ha2⟩ | ⟨key', w', hk', hsl'⟩
          · left
            rw [dirAppend_other _ _ _ _ (fun hc => hne (logName_inj hc))]
            exact ⟨ha1, ha2⟩
          · right
            refine ⟨key', w', ?_, ?_⟩
            · intro hc
              rw [List.append_nil] at hc
              exact hk' (List.mem_cons_of_mem _ hc)
            · rw [dirAppend_other _ _ _ _ (fun hc => hne (logName_inj hc))]
              exact hsl'
      have hnd2 : (akeys E2 ++ ([] : List String)).Nodup := by
        rw [List.append_nil]
        exact (List.nodup_cons.mp (List.Nodup.of_append_right hndsplit)).2
      have hprev2 : alookup (logName (MM + 2))
          (dirAppend dx1 (logName (MM + 2)) (encodeCommand (Command.set k v))) =
          some ((([] : List Token) ++ added1) ++ encodeCommand (Command.set k v)) := by
        rw [dirAppend_self, halk1]
        rfl
      obtain ⟨added2, hstr2, halk2, hnames2, hRend, hrdpres2, hstruct2⟩ :=
        compactLoop_content (MM + 2) E2 _ _ _ [] _ _ _ _
          ((([] : List Token) ++ added1) ++ encodeCommand (Command.set k v))
          hloop2 hE2inv (hR2 _) hnd2 hprev2
      -- structural form of the compacted directory
      have hd3struct : d3' =
          ((d ++ [(logName (MM + 1), encodeCommand (Command.set k v))]) ++
            [(logName (MM + 3), [])]) ++
          [(logName (MM + 2),
            (((([] : List Token) ++ added1) ++ encodeCommand (Command.set k v)) ++ added2))] := by
        rw [hstruct2]
        simp only [dirAppend, halk1, Option.getD_some]
        rw [aupdate_aupdate_same]
        rw [hstruct1]
        rw [aupdate_aupdate_same]
        have hfreepre : ∀ e ∈ ((d ++ [(logName (MM + 1), encodeCommand (Command.set k v))]) ++
            [(logName (MM + 3), [])]), e.1 ≠ logName (MM + 2) := by
          intro e he
          rcases List.mem_append.mp he with he1 | he1
          · rcases List.mem_append.mp he1 with he2 | he2
            · exact hfreed (MM + 2) (by omega) (by omega) e he2
            · intro hc
              rw [List.mem_singleton.mp he2] at hc
              exact (by omega : ¬ (MM + 1 = MM + 2)) (logName_inj hc)
          · intro hc
            rw [List.mem_singleton.mp he1] at hc
            exact (by omega : ¬ (MM + 3 = MM + 2)) (logName_inj hc)
        exact aupdate_append_replace _ _ [] hfreepre
      -- readers key sets
      have hak1 : akeys rdx1 = akeys (aupdate (MM + 2) ⟨0, 0⟩ (aupdate (MM + 3) ⟨0, 0⟩
          (aupdate (MM + 1) ⟨0, 0⟩ rdG))) :=
        compactLoop_readers_akeys _ _ _ _ _ _ _ _ _ h1
      have haux1 : akeys (aupdate (MM + 1) (⟨0, 0⟩ : RState) rdG) =
          akeys rdG ++ [MM + 1] :=
        akeys_aupdate_of_not_mem _ (hnotG (MM + 1) (by omega))
      have haux2 : akeys (aupdate (MM + 3) (⟨0, 0⟩ : RState)
          (aupdate (MM + 1) ⟨0, 0⟩ rdG)) = (akeys rdG ++ [MM + 1]) ++ [MM + 3] := by
        rw [akeys_aupdate_of_not_mem _ (by
          rw [haux1]
          intro hc
          rcases List.mem_append.mp hc with hc1 | hc1
          · exact hnotG (MM + 3) (by omega) hc1
          · exact (by omega : ¬ (MM + 3 = MM + 1)) (List.mem_singleton.mp hc1))]
        rw [haux1]
      have hakRD2 : akeys (aupdate (MM + 2) (⟨0, 0⟩ : RState) (aupdate (MM + 3) ⟨0, 0⟩
          (aupdate (MM + 1) ⟨0, 0⟩ rdG))) =
          ((akeys rdG ++ [MM + 1]) ++ [MM + 3]) ++ [MM + 2] := by
        rw [akeys_aupdate_of_not_mem _ (by
          rw [haux2]
          intro hc
          rcases List.mem_append.mp hc with hc1 | hc1
          · rcases List.mem_append.mp hc1 with hc2 | hc2
            · exact hnotG (MM + 2) (by omega) hc2
            · exact (by omega : ¬ (MM + 2 = MM + 1)) (List.mem_singleton.mp hc2)
          · exact (by omega : ¬ (MM + 2 = MM + 3)) (List.mem_singleton.mp hc1))]
        rw [haux2]
      have hakmid : akeys (aupdate (MM + 1)
          (⟨0, 0 + (encodeCommand (Command.set k v)).length⟩ : RState) rdx1) =
          akeys rdx1 := by
        apply akeys_aupdate_of_mem
        rw [hak1, hakRD2]
        exact List.mem_append_left _ (List.mem_append_left _
          (List.mem_append_right _ (List.mem_singleton.mpr rfl)))
      have hak3 : akeys rd3' = ((akeys rdG ++ [MM + 1]) ++ [MM + 3]) ++ [MM + 2] := by
        rw [compactLoop_readers_akeys _ _ _ _ _ _ _ _ _ hloop2, hakmid, hak1, hakRD2]
      -- the stale generation list
      have hstale : (akeys rd3').filter (fun g => decide (g < MM + 2)) =
          akeys rdG ++ [MM + 1] := by
        rw [hak3]
        rw [List.filter_append, List.filter_append, List.filter_append]
        have f1 : (akeys rdG).filter (fun g => decide (g < MM + 2)) = akeys rdG :=
          List.filter_eq_self.mpr (fun a ha => by
            have := hGle a ha
            simp
            omega)
        have f2 : ([MM + 1] : List Nat).filter (fun g => decide (g < MM + 2)) =
            [MM + 1] := by
          simp
        have f3 : ([MM + 3] : List Nat).filter (fun g => decide (g < MM + 2)) = [] := by
          simp
        have f4 : ([MM + 2] : List Nat).filter (fun g => decide (g < MM + 2)) = [] := by
          simp
        rw [f1, f2, f3, f4, List.append_nil, List.append_nil]
      -- the residual directory after deleting the stale generation files
      have hresfree : ∀ e ∈ (akeys rdG).foldl (fun dd g => aerase (logName g) dd) d,
          e.1 ≠ logName (MM + 1) :=
        fun e he => hfreed (MM + 1) (by omega) (by omega) e (mem_foldl_aerase _ _ he)
      have hparseres : ∀ n ∈ akeys ((akeys rdG).foldl
          (fun dd g => aerase (logName g) dd) d), parseGenName n = none := by
        intro n hn
        cases hc0 : parseGenName n with
        | none => rfl
        | some g =>
          exfalso
          have hnd2 : n ∈ akeys d := mem_akeys_foldl_aerase _ _ hn
          obtain ⟨e, he, hee⟩ := List.mem_map.mp hnd2
          have hcan := hcanon e he g (by rw [hee]; exact hc0)
          have hgmem : g ∈ genList d := mem_genList.mpr ⟨e, he, by rw [hee]; exact hc0⟩
          have hgG : g ∈ akeys rdG := (hGmem g).mpr hgmem
          have hmemmap : n ∈ (akeys rdG).map logName :=
            List.mem_map.mpr ⟨g, hgG, by rw [← hee, hcan]⟩
          exact not_mem_akeys_foldl_aerase _ _ hnd hmemmap hn
      rw [← hd3eq, ← hrd3eq] at hsdir
      rw [hstale, hd3struct] at hsdir
      rw [foldl_aerase_names_append
        [(logName (MM + 2),
          ((([] : List Token) ++ added1) ++ encodeCommand (Command.set k v)) ++ added2)]
        (akeys rdG ++ [MM + 1]) _ (by
          intro g hg e he hc
          rw [List.mem_singleton.mp he] at hc
          have h2i := logName_inj hc
          rcases List.mem_append.mp hg with hg1 | hg1
          · have := hGle g hg1
            omega
          · have := List.mem_singleton.mp hg1
            omega)] at hsdir
      rw [foldl_aerase_names_append [(logName (MM + 3), [])]
        (akeys rdG ++ [MM + 1]) _ (by
          intro g hg e he hc
          rw [List.mem_singleton.mp he] at hc
          have h2i := logName_inj hc
          rcases List.mem_append.mp hg with hg1 | hg1
          · have := hGle g hg1
            omega
          · have := List.mem_singleton.mp hg1
            omega)] at hsdir
      rw [List.foldl_append] at hsdir
      rw [foldl_aerase_names_append
        [(logName (MM + 1), encodeCommand (Command.set k v))]
        (akeys rdG) d (by
          intro g hg e he hc
          rw [List.mem_singleton.mp he] at hc
          have h2i := logName_inj hc
          have := hGle g hg
          omega)] at hsdir
      simp only [List.foldl_cons, List.foldl_nil] at hsdir
      rw [aerase_append_found _ [] hresfree] at hsdir
      rw [List.append_nil] at hsdir
      have hfinaldir : s3.dir =
          ((akeys rdG).foldl (fun dd g => aerase (logName g) dd) d) ++
            [(logName (MM + 3), []),
             (logName (MM + 2),
               added1 ++ (Token.setTag :: Token.str k :: Token.str v :: added2))] := by
        rw [← hsdir]
        rw [List.append_assoc]
        have hBIG : ((([] : List Token) ++ added1) ++
            encodeCommand (Command.set k v)) ++ added2 =
            added1 ++ (Token.setTag :: Token.str k :: Token.str v :: added2) := by
          rw [List.nil_append, List.append_assoc]
          rfl
        rw [hBIG]
        rfl
      obtain ⟨s2, hcop, hcget⟩ := reopen_compacted
        ((akeys rdG).foldl (fun dd g => aerase (logName g) dd) d) k v MM added1 added2
        hparseres (setStreamKeys_stream hstr1) (setStreamKeys_nk hkE2 hstr2) hbound
      refine ⟨s2, ?_, hcget⟩
      rw [hfinaldir]
      exact hcop

/-- Claim C2 counterexample: a directory holding the single empty log
file of generation `2^64 - 2` opens fine (the new writable generation
is `2^64 - 1`) and `set` returns `Ok`, but re-opening the directory
panics: `gen_list.last() + 1` overflows `u64` (debug-profile
semantics), so the subsequent `get` is never reached. -/
theorem c2_counterexample :
    openStore [(logName (2 ^ 64 - 2), ([] : List Token))] =
      .ok (theStore (openStore [(logName (2 ^ 64 - 2), ([] : List Token))])) ∧
    (KvStore.set (theStore (openStore [(logName (2 ^ 64 - 2), ([] : List Token))]))
      "k" "v" true []).1 = .ok () ∧
    openStore (KvStore.set
      (theStore (openStore [(logName (2 ^ 64 - 2), ([] : List Token))]))
      "k" "v" true []).2.dir = .error (.panicked "attempt to add with overflow") := by
  refine ⟨by decide, by decide, by decide⟩

/-- Claim C2 (amended): on a real directory — unique file names, and
every name that parses as a generation is the canonical `{gen}.log`
name — whose largest generation `M` satisfies `M + 4 < 2^64`, the
durability round trip holds: if `open` succeeds and `set(k,v)` returns
`Ok` (including when it triggers compaction), then re-opening the
resulting directory succeeds and `get(k)` returns `Ok(Some(v))`. -/
theorem c2_open_set_reopen_get (d : Dir) (k v : String) (u : Unit) (s0 sA : KvStore)
    (hnd : NoDupKeys d)
    (hcanon : ∀ e ∈ d, ∀ g, parseGenName e.1 = some g → e.1 = logName g)
    (hbound : (genList d).getLast?.getD 0 + 4 < 2 ^ 64)
    (hopen : openStore d = .ok s0)
    (hset : KvStore.set s0 k v true [] = (.ok u, sA)) :
    ∃ s2, openStore sA.dir = .ok s2 ∧ (KvStore.get s2 k).1 = .ok (some v) := by
  obtain ⟨rdG, idxG, uncG, hrep, hb1, hdir, hrd, hwo, hidx, hld, hcg, hunc⟩ :=
    openStore_ok_parts hopen
  have hMle : ∀ g ∈ genList d, g ≤ (genList d).getLast?.getD 0 :=
    fun g hg => mem_genList_le hg
  have habs1 : alookup (logName ((genList d).getLast?.getD 0 + 1)) d = none :=
    alookup_logName_none (by omega) (fun hc => by
      have := hMle _ hc
      omega)
  have hfreed1 : ∀ e ∈ d, e.1 ≠ logName ((genList d).getLast?.getD 0 + 1) :=
    free_of_alookup_none habs1
  have hdirA : s0.dir = d ++ [(logName ((genList d).getLast?.getD 0 + 1), [])] := by
    rw [hdir, habs1]
    exact aupdate_of_none _ habs1
  have hnl : ¬((!s0.load) = true) := by
    rw [hld]
    decide
  unfold KvStore.set at hset
  rw [if_neg hnl] at hset
  rw [if_neg (by decide : ¬((!true) = true))] at hset
  dsimp only at hset
  rw [hcg, hwo, hidx, hdirA, hrd, hld, hunc] at hset
  have hDA : dirAppend (d ++ [(logName ((genList d).getLast?.getD 0 + 1), [])])
      (logName ((genList d).getLast?.getD 0 + 1)) (encodeCommand (Command.set k v)) =
      d ++ [(logName ((genList d).getLast?.getD 0 + 1),
        encodeCommand (Command.set k v))] := by
    unfold dirAppend
    rw [alookup_append_found ([] : List Token) [] hfreed1]
    exact aupdate_append_replace _ _ [] hfreed1
  rw [hDA] at hset
  have hL : 0 + (encodeCommand (Command.set k v)).length - 0 = 3 := by
    simp [encodeCommand]
  rw [hL] at hset
  cases hidx0 : alookup k idxG with
  | some old =>
    rw [hidx0] at hset
    dsimp only at hset
    split at hset
    · split at hset
      · rename_i s3 heqc
        have hsA := (Prod.mk.injEq .. ▸ hset).2
        rw [← hsA]
        exact compact_then_reopen d k v rdG idxG uncG _ _ _ s3 _ hnd hcanon hMle
          hbound hrep heqc
      · exact absurd (congrArg Prod.fst hset) (by simp)
    · have hsA := (Prod.mk.injEq .. ▸ hset).2
      obtain ⟨s2, ho2, hg2⟩ :=
        reopen_after_set d k v rdG idxG uncG _ rfl hrep (by omega)
      refine ⟨s2, ?_, hg2⟩
      rw [show sA.dir = d ++ [(logName ((genList d).getLast?.getD 0 + 1),
        encodeCommand (Command.set k v))] from by rw [← hsA]]
      exact ho2
  | none =>
    rw [hidx0] at hset
    dsimp only at hset
    split at hset
    · split at hset
      · rename_i s3 heqc
        have hsA := (Prod.mk.injEq .. ▸ hset).2
        rw [← hsA]
        exact compact_then_reopen d k v rdG idxG uncG _ _ _ s3 _ hnd hcanon hMle
          hbound hrep heqc
      · exact absurd (congrArg Prod.fst hset) (by simp)
    · have hsA := (Prod.mk.injEq .. ▸ hset).2
      obtain ⟨s2, ho2, hg2⟩ :=
        reopen_after_set d k v rdG idxG uncG _ rfl hrep (by omega)
      refine ⟨s2, ?_, hg2⟩
      rw [show sA.dir = d ++ [(logName ((genList d).getLast?.getD 0 + 1),
        encodeCommand (Command.set k v))] from by rw [← hsA]]
      exact ho2

/-- Claim C2 witness: open on the empty directory, set a key, close,
reopen, get. -/
theorem c2_witness :
    ∃ s2, openStore (KvStore.mk
        [(logName 1, [Token.setTag, Token.str "k", Token.str "v"])]
        [(1, ⟨0, 0⟩)] 3 [("k", ⟨1, 0, 3⟩)] true 1 0).dir = .ok s2 ∧
      (KvStore.get s2 "k").1 = .ok (some "v") :=
  c2_open_set_reopen_get [] "k" "v" () store1
    (KvStore.mk [(logName 1, [Token.setTag, Token.str "k", Token.str "v"])]
      [(1, ⟨0, 0⟩)] 3 [("k", ⟨1, 0, 3⟩)] true 1 0)
    (by decide) (by simp) (by decide) (by decide) (by decide)

/-- Claim C8 witness: concrete request/response pairs on small
reachable states. -/
theorem c8_witness :
    (serveOne store1 (.set "a" "x") true []).1 = some (.ok none) ∧
    (serveOne (KvStore.set store1 "a" "x" true []).2 (.remove "a") true []).1 =
      some (.ok none) ∧
    (serveOne store1 (.get "a") true []).1 = some (.ok none) ∧
    (serveOne store1 (.remove "a") true []).1 = some (.err "Key not found") :=
  ⟨(c8_server_responses store1 "a" "x" true []).1 (by decide),
   (c8_server_responses (KvStore.set store1 "a" "x" true []).2 "a" "x" true []).2.1
     (by decide),
   (c8_server_responses store1 "a" "x" true []).2.2.1 none (by decide),
   (c8_server_responses store1 "a" "x" true []).2.2.2 (by decide) (by decide)⟩

end Kvs
